import Mathlib

/-!
# Threaded Mandelbrot set generator

A shallow embedding of the three C programs of the repository

* `fractal.c`        the single-threaded reference renderer,
* `fractalthread.c`  the static strategy (one contiguous band of rows per thread),
* `fractaltask.c`    the dynamic strategy (a table of 20x20 tiles claimed under a lock),

followed by theorems about the work partition, the claim operation of the
task table, the escape-time evaluator, the zoom transforms and the mutex
discipline of the worker pool.

Conventions of the embedding.

* A C `int` is an `Int`.  The products and quotients that compute a band of
  rows go through `wrap_int`, the two's complement reduction to 32 bits, since
  `thread_id * height` can leave the `int` range for operands that are
  themselves in range.  Loop counters and tile coordinates never exceed the
  grid dimensions and are left unreduced.
* A C `double` is a rational number: arithmetic is exact.  `cabs(z) < 4` is
  decided as `re*re + im*im < 16`, which is the same comparison without the
  square root, and `cpow(z,2)` is `z*z`.
* A `for (v = lo; v < hi; v++)` loop without `break` is a traversal of
  `for_range lo hi`; the claim scan, which leaves its loops with `break`, is
  written with explicit state passing.
* A worker returns the list of its `gfx_color`/`gfx_point` pairs in program
  order; each pair is executed under the mutex and is one `Plot`.
* A pool of workers is an interleaving of atomic actions (`pthread_mutex_lock`,
  `pthread_mutex_unlock`, `gfx_color`, `gfx_point`, the scan of the task
  array), each worker taking its own in program order; `pthread_mutex_lock`
  goes through only while the mutex is free.
-/

namespace Mandelbrot

/-! ## Machine integers and loops -/

/-- Two's complement reduction of an integer to the 32-bit `int` range. -/
def wrap_int (v : Int) : Int := (v + 2147483648) % 4294967296 - 2147483648

/-- Largest value of a C `int`. -/
def INT_MAX : Int := 2147483647

/-- `a * b` on `int`. -/
def int_mul (a b : Int) : Int := wrap_int (a * b)

/-- `a + b` on `int`. -/
def int_add (a b : Int) : Int := wrap_int (a + b)

/-- `a / b` on `int`: C division truncates toward zero. -/
def int_div (a b : Int) : Int := wrap_int (Int.tdiv a b)

/-- The values taken by `v` in `for (v = lo; v < hi; v++)`. -/
def for_range (lo hi : Int) : List Int :=
  (List.range (hi - lo).toNat).map (fun (k : Nat) => lo + (k : Int))

/-! ## Exact complex arithmetic -/

/-- A `double complex` value, over exact rationals. -/
structure Cplx where
  re : ℚ
  im : ℚ
deriving DecidableEq

namespace Cplx

/-- Complex addition. -/
def add (z w : Cplx) : Cplx := ⟨z.re + w.re, z.im + w.im⟩

/-- The square `cpow(z,2)`. -/
def sq (z : Cplx) : Cplx := ⟨z.re * z.re - z.im * z.im, 2 * z.re * z.im⟩

/-- The squared magnitude, `cabs(z)` squared. -/
def abs_sq (z : Cplx) : ℚ := z.re * z.re + z.im * z.im

end Cplx

/-- The loop of `compute_point`:
`while( cabs(z)<4 && iter < max ) { z = cpow(z,2) + alpha; iter++; }`
followed by `return iter`. -/
def compute_point_loop (alpha : Cplx) (max : Int) (z : Cplx) (iter : Int) : Int :=
  if z.abs_sq < 16 ∧ iter < max then
    compute_point_loop alpha max (Cplx.add z.sq alpha) (iter + 1)
  else iter
termination_by (max - iter).toNat
decreasing_by omega

/-- The function `compute_point` (identical in the three programs): `z = 0`,
`alpha = x + I*y`, `iter = 0`, then the loop. -/
def compute_point (x y : ℚ) (max : Int) : Int :=
  compute_point_loop ⟨x, y⟩ max ⟨0, 0⟩ 0

/-! ## Colours and plots -/

/-- The cast `(int)d` of a `double`: truncation toward zero. -/
def to_int (d : ℚ) : Int := Int.tdiv d.num d.den

/-- An RGB triple as passed to `gfx_color`. -/
structure RGB where
  r : Int
  g : Int
  b : Int
deriving DecidableEq

/-- The colour gradient computed inline by every renderer from the iteration
count `iter` and the cap `maxiter` it compares against. -/
def gradient (iter maxiter : Int) : RGB :=
  if iter = maxiter then ⟨0, 0, 0⟩
  else
    let t : ℚ := (iter : ℚ) / (maxiter : ℚ)
    ⟨to_int (9 * (1 - t) * t * t * t * 255),
     to_int (15 * (1 - t) * (1 - t) * t * t * 255),
     to_int (17 / 2 * (1 - t) * (1 - t) * (1 - t) * t * 255)⟩

/-- One `gfx_color(r,g,b); gfx_point(x,y);` pair. -/
structure Plot where
  x : Int
  y : Int
  colour : RGB
deriving DecidableEq

/-- How many plots of a trace hit the pixel `(x, y)`. -/
def plots_at (tr : List Plot) (x y : Int) : Nat :=
  tr.countP (fun p => p.x = x ∧ p.y = y)

/-- The colour the framebuffer shows at `(x, y)` after the plots of a trace:
that of the last plot at the pixel, `none` where nothing was drawn. -/
def framebuffer (tr : List Plot) (x y : Int) : Option RGB :=
  ((tr.filter (fun p => p.x = x ∧ p.y = y)).getLast?).map (fun p => p.colour)

/-- The four bounds of the visible region. -/
structure Viewport where
  xmin : ℚ
  xmax : ℚ
  ymin : ℚ
  ymax : ℚ
deriving DecidableEq

/-! ## `fractal.c`: the single-threaded reference -/

namespace Fractal

/-- The reference `compute_image`: every pixel of the `width` x `height` grid
in row-major order. -/
def compute_image (width height : Int) (xmin xmax ymin ymax : ℚ) (maxiter : Int) :
    List Plot :=
  (for_range 0 height).flatMap fun (j : Int) =>
    (for_range 0 width).map fun (i : Int) =>
      let x : ℚ := xmin + (i : ℚ) * (xmax - xmin) / (width : ℚ)
      let y : ℚ := ymin + (j : ℚ) * (ymax - ymin) / (height : ℚ)
      let iter := compute_point x y maxiter
      (⟨i, j, gradient iter maxiter⟩ : Plot)

end Fractal

/-! ## `fractalthread.c`: the static strategy -/

namespace FractalThread

/-- The argument record of a worker. -/
structure thread_args where
  width : Int
  height : Int
  xmin : ℚ
  xmax : ℚ
  ymin : ℚ
  ymax : ℚ
  maxiter : Int
  thread_id : Int
  num_threads : Int

/-- The local `start` of `compute_image_thread`:
`thread->thread_id * thread->height / thread->num_threads`. -/
def band_start (thread : thread_args) : Int :=
  int_div (int_mul thread.thread_id thread.height) thread.num_threads

/-- The local `end` of `compute_image_thread`:
`(thread->thread_id + 1) * thread->height / thread->num_threads`. -/
def band_end (thread : thread_args) : Int :=
  int_div (int_mul (int_add thread.thread_id 1) thread.height) thread.num_threads

/-- The worker `compute_image_thread`; `gfx_xsize` is the width the display
reports. -/
def compute_image_thread (gfx_xsize : Int) (thread : thread_args) : List Plot :=
  let width := gfx_xsize
  (for_range (band_start thread) (band_end thread)).flatMap fun (j : Int) =>
    (for_range 0 width).map fun (i : Int) =>
      let x : ℚ := thread.xmin + (i : ℚ) * (thread.xmax - thread.xmin) / (thread.width : ℚ)
      let y : ℚ := thread.ymin + (j : ℚ) * (thread.ymax - thread.ymin) / (thread.height : ℚ)
      let iter := compute_point x y thread.maxiter
      (⟨i, j, gradient iter thread.maxiter⟩ : Plot)

/-- The record `args[i]` that `compute_image` fills in for thread `i`. -/
def args (gfx_xsize gfx_ysize num_threads : Int) (xmin xmax ymin ymax : ℚ) (maxiter : Int)
    (i : Int) : thread_args :=
  { width := gfx_xsize, height := gfx_ysize, xmin := xmin, xmax := xmax, ymin := ymin,
    ymax := ymax, maxiter := maxiter, thread_id := i, num_threads := num_threads }

/-- The orchestrator `compute_image`: one worker per `i` in `0 .. num_threads-1`;
the result lists the trace of each worker. -/
def compute_image (gfx_xsize gfx_ysize num_threads : Int) (xmin xmax ymin ymax : ℚ)
    (maxiter : Int) : List (List Plot) :=
  (for_range 0 num_threads).map fun (i : Int) =>
    compute_image_thread gfx_xsize (args gfx_xsize gfx_ysize num_threads xmin xmax ymin ymax maxiter i)

end FractalThread

/-! ## `fractaltask.c`: the dynamic strategy -/

namespace FractalTask

/-- The macro `MAXITER`. -/
def MAXITER : Int := 500

/-- The macro `TASK_SIZE`. -/
def TASK_SIZE : Int := 20

/-- The record `Task`: the origin of a tile and its `started` flag. -/
structure Task where
  x : Int
  y : Int
  started : Int
deriving DecidableEq

/-- The read `tasks[i][j]` of the two-dimensional task array. -/
def tile (tasks : List (List Task)) (i j : Int) : Task :=
  (tasks.getD i.toNat []).getD j.toNat ⟨0, 0, 0⟩

/-- The write `tasks[i][j].started = 1`. -/
def set_started (tasks : List (List Task)) (i j : Int) : List (List Task) :=
  tasks.set i.toNat
    ((tasks.getD i.toNat []).set j.toNat { tile tasks i j with started := 1 })

/-- The function `init_tasks`: `gfx_ysize() / TASK_SIZE` rows of
`gfx_xsize() / TASK_SIZE` tiles, tile `(i, j)` at `(j * TASK_SIZE, i * TASK_SIZE)`
and not started. -/
def init_tasks (gfx_xsize gfx_ysize : Int) : List (List Task) :=
  let width := Int.tdiv gfx_xsize TASK_SIZE
  let height := Int.tdiv gfx_ysize TASK_SIZE
  (for_range 0 height).map fun (i : Int) =>
    (for_range 0 width).map fun (j : Int) =>
      ({ x := j * TASK_SIZE, y := i * TASK_SIZE, started := 0 } : Task)

/-- The variables the locked scan of `compute_image_task` works on: the shared
task array and the locals `xtask`, `ytask`. -/
structure scan_state where
  tasks : List (List Task)
  xtask : Int
  ytask : Int
deriving DecidableEq

/-- The inner loop of the scan, over the remaining values of `j` in row `i`:
the first tile with `started == 0` is marked, its origin is read and the loop
is left with `break`. -/
def scan_row (i : Int) : List Int → scan_state → scan_state
  | [], st => st
  | j :: js, st =>
    if (tile st.tasks i j).started = 0 then
      let tasks1 := set_started st.tasks i j
      { tasks := tasks1, xtask := (tile tasks1 i j).x, ytask := (tile tasks1 i j).y }
    else scan_row i js st

/-- The outer loop of the scan, over the remaining values of `i`: after the
inner loop, `if (xtask != -1 && ytask != -1) break;`. -/
def scan_rows (width : Int) : List Int → scan_state → scan_state
  | [], st => st
  | i :: is, st =>
    let st1 := scan_row i (for_range 0 (Int.tdiv width TASK_SIZE)) st
    if st1.xtask ≠ -1 ∧ st1.ytask ≠ -1 then st1 else scan_rows width is st1

/-- The locked section at the top of the loop of `compute_image_task`
(`xtask = ytask = -1`, the scan, then the test `xtask < 0 || ytask < 0`):
the new task array and the origin of the claimed tile, `none` when the worker
leaves its loop. -/
def claim_next (width height : Int) (tasks : List (List Task)) :
    List (List Task) × Option (Int × Int) :=
  let st := scan_rows width (for_range 0 (Int.tdiv height TASK_SIZE)) ⟨tasks, -1, -1⟩
  if st.xtask < 0 ∨ st.ytask < 0 then (st.tasks, none)
  else (st.tasks, some (st.xtask, st.ytask))

/-- The pixel at offset `(i, j)` of the tile at `(xtask, ytask)`, as
`compute_image_task` colours and plots it. -/
def tile_plot (width height : Int) (v : Viewport) (xtask ytask i j : Int) : Plot :=
  let x : ℚ := v.xmin + ((xtask + i : Int) : ℚ) * (v.xmax - v.xmin) / (width : ℚ)
  let y : ℚ := v.ymin + ((ytask + j : Int) : ℚ) * (v.ymax - v.ymin) / (height : ℚ)
  let iter := compute_point x y MAXITER
  ⟨xtask + i, ytask + j, gradient iter MAXITER⟩

/-- The drawing loops of `compute_image_task` for one claimed tile: 20 rows
of 20 pixels from `(xtask, ytask)`. -/
def draw_tile (width height : Int) (v : Viewport) (xtask ytask : Int) : List Plot :=
  (for_range 0 20).flatMap fun (j : Int) =>
    (for_range 0 20).map fun (i : Int) => tile_plot width height v xtask ytask i j

/-- The worker `compute_image_task` running on its own: claim, draw, repeat
until the claim finds nothing.  `fuel` bounds the number of claims; the
result is the final task array and the plots, `none` when the fuel runs out
first. -/
def compute_image_task (width height : Int) (v : Viewport) :
    Nat → List (List Task) → Option (List (List Task) × List Plot)
  | 0, _ => none
  | fuel + 1, tasks =>
    match claim_next width height tasks with
    | (tasks1, none) => some (tasks1, [])
    | (tasks1, some (xtask, ytask)) =>
      (compute_image_task width height v fuel tasks1).map fun r =>
        (r.1, draw_tile width height v xtask ytask ++ r.2)

/-- A sequence of `k` successive claims on the shared task array, whichever
workers issue them: the array after the last claim and the results in order. -/
def claims (width height : Int) :
    Nat → List (List Task) → List (List Task) × List (Option (Int × Int))
  | 0, tasks => (tasks, [])
  | k + 1, tasks =>
    let r := claim_next width height tasks
    let rest := claims width height k r.1
    (rest.1, r.2 :: rest.2)

/-- The shape every task array of a render pass has: the rows and columns
`init_tasks` allocates and the origins it writes; the `started` flags are
free. -/
def well_formed (width height : Int) (tasks : List (List Task)) : Prop :=
  tasks.length = (Int.tdiv height TASK_SIZE).toNat ∧
  ∀ i ∈ for_range 0 (Int.tdiv height TASK_SIZE),
    (tasks.getD i.toNat []).length = (Int.tdiv width TASK_SIZE).toNat ∧
    ∀ j ∈ for_range 0 (Int.tdiv width TASK_SIZE),
      (tile tasks i j).x = j * TASK_SIZE ∧ (tile tasks i j).y = i * TASK_SIZE

instance (width height : Int) (tasks : List (List Task)) :
    Decidable (well_formed width height tasks) := by
  unfold well_formed; infer_instance

/-- The flags after `k` claims on a fresh array: exactly the first `k` tiles
in row-major order are started. -/
def claimed_first (width height : Int) (k : Int) (tasks : List (List Task)) : Prop :=
  ∀ i j, 0 ≤ i → i < Int.tdiv height TASK_SIZE → 0 ≤ j → j < Int.tdiv width TASK_SIZE →
    (tile tasks i j).started = if i * Int.tdiv width TASK_SIZE + j < k then 1 else 0

end FractalTask

/-! ## Zoom transforms (identical in the three programs) -/

/-- The function `zoom_in` on the global bounds. -/
def zoom_in (v : Viewport) : Viewport :=
  let xcenter := (v.xmin + v.xmax) / 2
  let ycenter := (v.ymin + v.ymax) / 2
  { xmin := (v.xmin - xcenter) / 2 + xcenter,
    xmax := (v.xmax - xcenter) / 2 + xcenter,
    ymin := (v.ymin - ycenter) / 2 + ycenter,
    ymax := (v.ymax - ycenter) / 2 + ycenter }

/-- The function `zoom_out` on the global bounds. -/
def zoom_out (v : Viewport) : Viewport :=
  let xcenter := (v.xmin + v.xmax) / 2
  let ycenter := (v.ymin + v.ymax) / 2
  { xmin := (v.xmin - xcenter) * 2 + xcenter,
    xmax := (v.xmax - xcenter) * 2 + xcenter,
    ymin := (v.ymin - ycenter) * 2 + ycenter,
    ymax := (v.ymax - ycenter) * 2 + ycenter }

/-! ## The escape rule of the specification, and the size of a band -/

/-- The orbit of the escape rule as the specification words it: `z_0 = 0` and
`z_{k+1} = z_k^2 + alpha`. -/
def orbit (alpha : Cplx) : Nat → Cplx
  | 0 => ⟨0, 0⟩
  | k + 1 => Cplx.add (orbit alpha k).sq alpha

namespace FractalThread

/-- The number of rows a worker draws: the number of iterations of the outer
loop `for (int j = start; j < end; j++)` of `compute_image_thread`. -/
def band_rows (thread : thread_args) : Nat :=
  (for_range (band_start thread) (band_end thread)).length

end FractalThread

/-! ## The worker pool as an interleaving of atomic actions -/

/-- The actions of a worker that touch shared state: `pthread_mutex_lock`,
`pthread_mutex_unlock`, `gfx_color`, `gfx_point`, and the scan of the task
array of `compute_image_task`. -/
inductive Action where
  | lock : Action
  | unlock : Action
  | gfx_color (c : RGB) : Action
  | gfx_point (x y : Int) : Action
  | scan : Action
deriving DecidableEq

/-- Whether an action is a `gfx_color`. -/
def Action.is_color : Action → Bool
  | Action.gfx_color _ => true
  | _ => false

/-- Whether an action is a `gfx_point`. -/
def Action.is_point : Action → Bool
  | Action.gfx_point _ _ => true
  | _ => false

/-- The actions behind the plots of a worker, in program order: for each pixel
`pthread_mutex_lock`, `gfx_color(r,g,b)`, `gfx_point(x,y)`,
`pthread_mutex_unlock`. -/
def plot_actions (tr : List Plot) : List Action :=
  tr.flatMap fun p =>
    [Action.lock, Action.gfx_color p.colour, Action.gfx_point p.x p.y, Action.unlock]

/-- The state of a pool of workers: the owner of the mutex, what each worker
has still to do, and the shared task array. -/
structure pool_state where
  holder : Option Nat
  progs : List (List Action)
  tasks : List (List FractalTask.Task)
deriving DecidableEq

namespace FractalThread

/-- The pool `compute_image` starts: the mutex free, worker `i` about to run
`compute_image_thread` on `args[i]`. -/
def pool (gfx_xsize gfx_ysize num_threads : Int) (xmin xmax ymin ymax : ℚ) (maxiter : Int) :
    pool_state :=
  { holder := none,
    progs := (compute_image gfx_xsize gfx_ysize num_threads xmin xmax ymin ymax maxiter).map
      plot_actions,
    tasks := [] }

end FractalThread

namespace FractalTask

/-- What a worker of `compute_image_task` does after its scan: release the
mutex; then leave when nothing was claimed, else draw the tile and start the
loop again with `pthread_mutex_lock` and the scan. -/
def after_scan (width height : Int) (v : Viewport) : Option (Int × Int) → List Action
  | none => [Action.unlock]
  | some (xtask, ytask) =>
    Action.unlock :: (plot_actions (draw_tile width height v xtask ytask)
      ++ [Action.lock, Action.scan])

/-- The pool `compute_image` starts: the mutex free, the array of `init_tasks`,
every worker at the top of the loop of `compute_image_task`. -/
def pool (gfx_xsize gfx_ysize num_threads : Int) : pool_state :=
  { holder := none,
    progs := (for_range 0 num_threads).map fun (_ : Int) => [Action.lock, Action.scan],
    tasks := init_tasks gfx_xsize gfx_ysize }

end FractalTask

/-- One action of worker `k`, and the event it leaves: `pthread_mutex_lock`
goes through only when the mutex is free; a worker whose function has returned
takes no step. -/
def step (width height : Int) (v : Viewport) (k : Nat) (s : pool_state) :
    Option (pool_state × (Nat × Action)) :=
  match s.progs.getD k [] with
  | [] => none
  | Action.lock :: rest =>
    if s.holder = none then
      some ({ s with holder := some k, progs := s.progs.set k rest }, (k, Action.lock))
    else none
  | Action.unlock :: rest =>
    some ({ s with holder := none, progs := s.progs.set k rest }, (k, Action.unlock))
  | Action.gfx_color c :: rest =>
    some ({ s with progs := s.progs.set k rest }, (k, Action.gfx_color c))
  | Action.gfx_point x y :: rest =>
    some ({ s with progs := s.progs.set k rest }, (k, Action.gfx_point x y))
  | Action.scan :: _ =>
    let r := FractalTask.claim_next width height s.tasks
    some ({ s with tasks := r.1,
                   progs := s.progs.set k (FractalTask.after_scan width height v r.2) },
          (k, Action.scan))

/-- An execution of the pool: the workers take their actions in the order a
schedule names them; the result is the last state and the events in order,
`none` when the schedule names a worker that cannot move. -/
def run (width height : Int) (v : Viewport) :
    List Nat → pool_state → Option (pool_state × List (Nat × Action))
  | [], s => some (s, [])
  | k :: ks, s =>
    match step width height v k s with
    | none => none
    | some (s1, e) =>
      match run width height v ks s1 with
      | none => none
      | some (s2, es) => some (s2, e :: es)

/-- The owner of the mutex after an event, as the event's own lock or unlock
sets it; `none` when the event breaks the discipline: a lock taken while the
mutex is held, or any other action by a worker that does not hold it. -/
def mutex_after (holder : Option Nat) (e : Nat × Action) : Option (Option Nat) :=
  match e.2 with
  | Action.lock => if holder = none then some (some e.1) else none
  | Action.unlock => if holder = some e.1 then some none else none
  | _ => if holder = some e.1 then some holder else none

/-- Every event of the log is taken under the mutex discipline. -/
def disciplined : Option Nat → List (Nat × Action) → Prop
  | _, [] => True
  | holder, e :: es =>
    match mutex_after holder e with
    | none => False
    | some holder1 => disciplined holder1 es

/-- Every `gfx_color` of the log is followed at once, when anything follows,
by a `gfx_point` of the same worker. -/
def paired : List (Nat × Action) → Prop
  | [] => True
  | e :: es =>
    (e.2.is_color = true →
      match es with
      | [] => True
      | e1 :: _ => e1.1 = e.1 ∧ e1.2.is_point = true) ∧ paired es

/-- A worker is inside a critical section: its next action is neither
`pthread_mutex_lock` nor missing. -/
def in_critical : List Action → Prop
  | [] => False
  | Action.lock :: _ => False
  | _ :: _ => True

/-- The bracketing of what a worker has still to do, seen from outside
(`false`) or inside (`true`) a critical section. -/
def bracketed : Bool → List Action → Prop
  | false, [] => True
  | false, Action.lock :: rest => bracketed true rest
  | false, _ :: _ => False
  | true, [] => False
  | true, Action.lock :: _ => False
  | true, Action.unlock :: rest => bracketed false rest
  | true, Action.gfx_color _ :: rest =>
    (∃ x y rest1, rest = Action.gfx_point x y :: rest1) ∧ bracketed true rest
  | true, Action.gfx_point _ _ :: rest => bracketed true rest
  | true, Action.scan :: rest => rest = []

/-- The invariant of the pool: a worker is inside a critical section exactly
when it owns the mutex. -/
def pool_inv (s : pool_state) : Prop :=
  ∀ k : Nat, bracketed (decide (s.holder = some k)) (s.progs.getD k [])

/-! # Theorems -/

/-! ## Loops, machine integers and counting plots -/

theorem mem_for_range (lo hi x : Int) : x ∈ for_range lo hi ↔ lo ≤ x ∧ x < hi := by
  unfold for_range
  simp only [List.mem_map, List.mem_range]
  constructor
  · rintro ⟨k, hk, rfl⟩
    omega
  · rintro ⟨h1, h2⟩
    exact ⟨(x - lo).toNat, by omega, by omega⟩

theorem nodup_for_range (lo hi : Int) : (for_range lo hi).Nodup := by
  unfold for_range
  refine List.Nodup.map ?_ (List.nodup_range _)
  intro a b h
  simpa using h

theorem wrap_int_of_range (v : Int) (h1 : -2147483648 ≤ v) (h2 : v ≤ 2147483647) :
    wrap_int v = v := by
  unfold wrap_int
  omega

theorem count_for_range (lo hi x : Int) :
    (for_range lo hi).count x = if lo ≤ x ∧ x < hi then 1 else 0 := by
  split_ifs with h
  · exact List.count_eq_one_of_mem (nodup_for_range lo hi) ((mem_for_range lo hi x).2 h)
  · exact List.count_eq_zero_of_not_mem (fun hm => h ((mem_for_range lo hi x).1 hm))

theorem plots_at_row (cols : List Int) (f : Int → Plot) (a b : Int)
    (hx : ∀ i, (f i).x = a + i) (hy : ∀ i, (f i).y = b) (x y : Int) :
    plots_at (cols.map f) x y = if b = y then cols.count (x - a) else 0 := by
  unfold plots_at
  induction cols with
  | nil => simp
  | cons i cols ih =>
    rw [List.map_cons, List.countP_cons, ih, List.count_cons]
    by_cases hj : b = y <;> by_cases hi : i = x - a
    · have : a + i = x := by omega
      simp [hj, hi, hx, hy]
    · have : ¬ a + i = x := by omega
      simp [hj, hi, hx, hy, this]
    · simp [hj, hi, hx, hy]
    · simp [hj, hi, hx, hy]

/-- Plots of a raster whose pixel `(i, j)` lands at `(a + i, b + j)`: a pixel is
hit once for each occurrence of its row and column in the two loops. -/
theorem plots_at_raster (rows cols : List Int) (f : Int → Int → Plot) (a b : Int)
    (hx : ∀ i j, (f i j).x = a + i) (hy : ∀ i j, (f i j).y = b + j) (x y : Int) :
    plots_at (rows.flatMap fun (j : Int) => cols.map fun (i : Int) => f i j) x y
      = rows.count (y - b) * cols.count (x - a) := by
  induction rows with
  | nil => simp [plots_at]
  | cons j rows ih =>
    have hrow := plots_at_row cols (fun i => f i j) a (b + j) (fun i => hx i j)
      (fun i => hy i j) x y
    unfold plots_at at ih hrow ⊢
    rw [List.flatMap_cons, List.countP_append, ih, hrow, List.count_cons]
    by_cases hj : b + j = y
    · have : j = y - b := by omega
      simp [hj, this, Nat.add_mul, Nat.add_comm]
    · have : ¬ j = y - b := by omega
      simp [hj, this]

theorem plots_at_flatten (L : List (List Plot)) (x y : Int) :
    plots_at L.flatten x y = (L.map fun tr => plots_at tr x y).sum := by
  unfold plots_at
  rw [List.countP_flatten]

theorem plots_at_thread (gw : Int) (t : FractalThread.thread_args) (x y : Int) :
    plots_at (FractalThread.compute_image_thread gw t) x y
      = if (FractalThread.band_start t ≤ y ∧ y < FractalThread.band_end t) ∧ (0 ≤ x ∧ x < gw)
        then 1 else 0 := by
  unfold FractalThread.compute_image_thread
  simp only []
  rw [plots_at_raster _ _ _ 0 0 (fun _ _ => (Int.zero_add _).symm)
    (fun _ _ => (Int.zero_add _).symm), count_for_range, count_for_range, Int.sub_zero,
    Int.sub_zero]
  by_cases h1 : FractalThread.band_start t ≤ y ∧ y < FractalThread.band_end t <;>
    by_cases h2 : 0 ≤ x ∧ x < gw <;> simp [h1, h2]

theorem plots_at_reference (w h : Int) (xmin xmax ymin ymax : ℚ) (maxiter : Int) (x y : Int) :
    plots_at (Fractal.compute_image w h xmin xmax ymin ymax maxiter) x y
      = if (0 ≤ y ∧ y < h) ∧ (0 ≤ x ∧ x < w) then 1 else 0 := by
  unfold Fractal.compute_image
  rw [plots_at_raster _ _ _ 0 0 (fun _ _ => (Int.zero_add _).symm)
    (fun _ _ => (Int.zero_add _).symm), count_for_range, count_for_range, Int.sub_zero,
    Int.sub_zero]
  by_cases h1 : 0 ≤ y ∧ y < h <;> by_cases h2 : 0 ≤ x ∧ x < w <;> simp [h1, h2]

/-! ## The static partition (C1) -/

namespace FractalThread

theorem band_start_eq (w h n : Int) (xmin xmax ymin ymax : ℚ) (maxiter i : Int)
    (hh : 0 ≤ h) (hn : 1 ≤ n) (hr : n * h ≤ INT_MAX) (hi0 : 0 ≤ i) (hin : i < n) :
    band_start (args w h n xmin xmax ymin ymax maxiter i) = i * h / n := by
  unfold band_start args int_div int_mul
  simp only []
  unfold INT_MAX at hr
  have h0 : 0 ≤ i * h := Int.mul_nonneg hi0 hh
  have h1 : i * h ≤ n * h := Int.mul_le_mul_of_nonneg_right (le_of_lt hin) hh
  rw [wrap_int_of_range (i * h) (by omega) (by omega), Int.tdiv_eq_ediv h0 (by omega)]
  have h2 : 0 ≤ i * h / n := Int.ediv_nonneg h0 (by omega)
  have h3 : i * h / n ≤ i * h := Int.ediv_le_self _ h0
  exact wrap_int_of_range _ (by omega) (by omega)

theorem band_end_eq (w h n : Int) (xmin xmax ymin ymax : ℚ) (maxiter i : Int)
    (hh : 0 ≤ h) (hn : 1 ≤ n) (hr : n * h ≤ INT_MAX) (hi0 : 0 ≤ i) (hin : i < n) :
    band_end (args w h n xmin xmax ymin ymax maxiter i) = (i + 1) * h / n := by
  unfold band_end args int_div int_mul int_add
  simp only []
  unfold INT_MAX at hr
  rcases eq_or_lt_of_le hh with hz | hpos
  · subst hz
    simp [wrap_int]
  · have hn2 : n ≤ n * h := by nlinarith
    rw [wrap_int_of_range (i + 1) (by omega) (by omega)]
    have h0 : 0 ≤ (i + 1) * h := Int.mul_nonneg (by omega) hh
    have h1 : (i + 1) * h ≤ n * h := Int.mul_le_mul_of_nonneg_right (by omega) hh
    rw [wrap_int_of_range ((i + 1) * h) (by omega) (by omega), Int.tdiv_eq_ediv h0 (by omega)]
    have h2 : 0 ≤ (i + 1) * h / n := Int.ediv_nonneg h0 (by omega)
    have h3 : (i + 1) * h / n ≤ (i + 1) * h := Int.ediv_le_self _ h0
    exact wrap_int_of_range _ (by omega) (by omega)

/-- Row `y` lies in the band `[i*h/n, (i+1)*h/n)` exactly when
`i*h < (y+1)*n ≤ (i+1)*h`. -/
theorem in_band_iff (h n i y : Int) (hn : 1 ≤ n) :
    (i * h / n ≤ y ∧ y < (i + 1) * h / n) ↔ (i * h < (y + 1) * n ∧ (y + 1) * n ≤ (i + 1) * h) := by
  have hn0 : 0 < n := by omega
  have e1 : i * h / n ≤ y ↔ i * h < (y + 1) * n := by
    rw [← Int.lt_add_one_iff, Int.ediv_lt_iff_lt_mul hn0]
  have e2 : y < (i + 1) * h / n ↔ (y + 1) * n ≤ (i + 1) * h := by
    rw [← Int.add_one_le_iff, Int.le_ediv_iff_mul_le hn0]
  rw [e1, e2]

theorem band_exists (h n y : Int) (hn : 1 ≤ n) (hy0 : 0 ≤ y) (hyh : y < h) :
    ∃ i, 0 ≤ i ∧ i < n ∧ i * h / n ≤ y ∧ y < (i + 1) * h / n := by
  have hh : 0 < h := by omega
  refine ⟨((y + 1) * n - 1) / h, ?_, ?_, ?_⟩
  · apply Int.ediv_nonneg <;> nlinarith
  · rw [Int.ediv_lt_iff_lt_mul hh]
    nlinarith
  · rw [in_band_iff h n _ y hn]
    have hm := Int.emod_add_ediv ((y + 1) * n - 1) h
    have hm0 := Int.emod_nonneg ((y + 1) * n - 1) (ne_of_gt hh)
    have hm1 := Int.emod_lt_of_pos ((y + 1) * n - 1) hh
    constructor <;> nlinarith

theorem band_unique (h n i k y : Int) (hn : 1 ≤ n) (hh : 0 ≤ h)
    (hi : i * h / n ≤ y ∧ y < (i + 1) * h / n) (hk : k * h / n ≤ y ∧ y < (k + 1) * h / n) :
    i = k := by
  rw [in_band_iff h n _ y hn] at hi hk
  have a1 : i * h < (k + 1) * h := lt_of_lt_of_le hi.1 hk.2
  have a2 : k * h < (i + 1) * h := lt_of_lt_of_le hk.1 hi.2
  have b1 : i < k + 1 := lt_of_mul_lt_mul_right a1 hh
  have b2 : k < i + 1 := lt_of_mul_lt_mul_right a2 hh
  omega

theorem band_inside (h n i y : Int) (hn : 1 ≤ n) (hh : 0 ≤ h) (hi0 : 0 ≤ i) (hin : i < n)
    (hi : i * h / n ≤ y ∧ y < (i + 1) * h / n) : 0 ≤ y ∧ y < h := by
  have s0 : 0 ≤ i * h / n := Int.ediv_nonneg (Int.mul_nonneg hi0 hh) (by omega)
  have e1 : (i + 1) * h / n ≤ n * h / n :=
    Int.ediv_le_ediv (by omega) (Int.mul_le_mul_of_nonneg_right (by omega) hh)
  rw [Int.mul_ediv_cancel_left h (by omega : n ≠ 0)] at e1
  omega

end FractalThread

theorem sum_map_one {α : Type} (l : List α) (f : α → Nat) (i : α) (hnd : l.Nodup)
    (hi : i ∈ l) (h1 : f i = 1) (h0 : ∀ k ∈ l, k ≠ i → f k = 0) : (l.map f).sum = 1 := by
  induction l with
  | nil => simp at hi
  | cons a l ih =>
    rw [List.nodup_cons] at hnd
    rw [List.map_cons, List.sum_cons]
    rcases List.mem_cons.1 hi with rfl | hil
    · have hz : (l.map f).sum = 0 := by
        rw [List.sum_eq_zero_iff]
        intro v hv
        rcases List.mem_map.1 hv with ⟨k, hk, rfl⟩
        exact h0 k (List.mem_cons_of_mem _ hk) (fun e => hnd.1 (e ▸ hk))
      omega
    · have ha : f a = 0 := h0 a (List.mem_cons_self _ _) (fun e => hnd.1 (e ▸ hil))
      have := ih hnd.2 hil (fun k hk => h0 k (List.mem_cons_of_mem _ hk))
      omega

theorem sum_map_zero {α : Type} (l : List α) (f : α → Nat) (h0 : ∀ k ∈ l, f k = 0) :
    (l.map f).sum = 0 := by
  rw [List.sum_eq_zero_iff]
  intro v hv
  rcases List.mem_map.1 hv with ⟨k, hk, rfl⟩
  exact h0 k hk

/-- Plots of the `n` workers together: when `n * h` fits an `int`, each pixel of
the grid is hit once and nothing else is hit. -/
theorem plots_at_static (w h n : Int) (xmin xmax ymin ymax : ℚ) (maxiter : Int)
    (hh : 0 ≤ h) (hn : 1 ≤ n) (hr : n * h ≤ INT_MAX) (x y : Int) :
    plots_at (FractalThread.compute_image w h n xmin xmax ymin ymax maxiter).flatten x y
      = if (0 ≤ x ∧ x < w) ∧ (0 ≤ y ∧ y < h) then 1 else 0 := by
  have hs := fun i hi0 hin =>
    FractalThread.band_start_eq w h n xmin xmax ymin ymax maxiter i hh hn hr hi0 hin
  have he := fun i hi0 hin =>
    FractalThread.band_end_eq w h n xmin xmax ymin ymax maxiter i hh hn hr hi0 hin
  rw [plots_at_flatten]
  unfold FractalThread.compute_image
  rw [List.map_map]
  split_ifs with hin
  · obtain ⟨⟨hx0, hxw⟩, hy0, hyh⟩ := hin
    obtain ⟨i, hi0, hin, h1, h2⟩ := FractalThread.band_exists h n y hn hy0 hyh
    refine sum_map_one _ _ i (nodup_for_range 0 n) ((mem_for_range 0 n i).2 ⟨hi0, hin⟩) ?_ ?_
    · show plots_at _ x y = 1
      rw [plots_at_thread, hs i hi0 hin, he i hi0 hin, if_pos ⟨⟨h1, h2⟩, hx0, hxw⟩]
    · intro k hk hki
      rw [mem_for_range] at hk
      show plots_at _ x y = 0
      rw [plots_at_thread, hs k hk.1 hk.2, he k hk.1 hk.2, if_neg]
      rintro ⟨hb, _⟩
      exact hki (FractalThread.band_unique h n k i y hn hh hb ⟨h1, h2⟩)
  · refine sum_map_zero _ _ ?_
    intro k hk
    rw [mem_for_range] at hk
    show plots_at _ x y = 0
    rw [plots_at_thread, hs k hk.1 hk.2, he k hk.1 hk.2, if_neg]
    rintro ⟨hb, hx⟩
    exact hin ⟨hx, FractalThread.band_inside h n k y hn hh hk.1 hk.2 hb⟩

/-- C1. Static strategy coverage: when `n * h` fits an `int`, the bands
`[start, end)` that `compute_image_thread` derives for `thread_id = 0 .. n-1`
lie inside the rows `0 .. h-1`, are pairwise disjoint and cover every row; so
every pixel of the grid is plotted by exactly one worker, exactly once, and
nothing is plotted outside the grid. -/
theorem static_partition_covers_once (w h n : Int) (xmin xmax ymin ymax : ℚ) (maxiter : Int)
    (hh : 0 ≤ h) (hn : 1 ≤ n) (hr : n * h ≤ INT_MAX) :
    (∀ i y, 0 ≤ i → i < n →
      FractalThread.band_start (FractalThread.args w h n xmin xmax ymin ymax maxiter i) ≤ y →
      y < FractalThread.band_end (FractalThread.args w h n xmin xmax ymin ymax maxiter i) →
      0 ≤ y ∧ y < h) ∧
    (∀ i k y, 0 ≤ i → i < n → 0 ≤ k → k < n →
      FractalThread.band_start (FractalThread.args w h n xmin xmax ymin ymax maxiter i) ≤ y →
      y < FractalThread.band_end (FractalThread.args w h n xmin xmax ymin ymax maxiter i) →
      FractalThread.band_start (FractalThread.args w h n xmin xmax ymin ymax maxiter k) ≤ y →
      y < FractalThread.band_end (FractalThread.args w h n xmin xmax ymin ymax maxiter k) →
      i = k) ∧
    (∀ y, 0 ≤ y → y < h → ∃ i, 0 ≤ i ∧ i < n ∧
      FractalThread.band_start (FractalThread.args w h n xmin xmax ymin ymax maxiter i) ≤ y ∧
      y < FractalThread.band_end (FractalThread.args w h n xmin xmax ymin ymax maxiter i)) ∧
    (∀ x y, 0 ≤ x → x < w → 0 ≤ y → y < h →
      (∃ i, 0 ≤ i ∧ i < n ∧
        plots_at (FractalThread.compute_image_thread w
          (FractalThread.args w h n xmin xmax ymin ymax maxiter i)) x y = 1 ∧
        ∀ k, 0 ≤ k → k < n → k ≠ i →
          plots_at (FractalThread.compute_image_thread w
            (FractalThread.args w h n xmin xmax ymin ymax maxiter k)) x y = 0) ∧
      plots_at (FractalThread.compute_image w h n xmin xmax ymin ymax maxiter).flatten x y = 1) ∧
    (∀ x y, ¬ (0 ≤ x ∧ x < w ∧ 0 ≤ y ∧ y < h) →
      plots_at (FractalThread.compute_image w h n xmin xmax ymin ymax maxiter).flatten x y = 0) := by
  have hs := fun i hi0 hin =>
    FractalThread.band_start_eq w h n xmin xmax ymin ymax maxiter i hh hn hr hi0 hin
  have he := fun i hi0 hin =>
    FractalThread.band_end_eq w h n xmin xmax ymin ymax maxiter i hh hn hr hi0 hin
  refine ⟨?_, ?_, ?_, ?_, ?_⟩
  · intro i y hi0 hin h1 h2
    rw [hs i hi0 hin] at h1
    rw [he i hi0 hin] at h2
    exact FractalThread.band_inside h n i y hn hh hi0 hin ⟨h1, h2⟩
  · intro i k y hi0 hin hk0 hkn h1 h2 h3 h4
    rw [hs i hi0 hin] at h1
    rw [he i hi0 hin] at h2
    rw [hs k hk0 hkn] at h3
    rw [he k hk0 hkn] at h4
    exact FractalThread.band_unique h n i k y hn hh ⟨h1, h2⟩ ⟨h3, h4⟩
  · intro y hy0 hyh
    obtain ⟨i, hi0, hin, h1, h2⟩ := FractalThread.band_exists h n y hn hy0 hyh
    exact ⟨i, hi0, hin, by rw [hs i hi0 hin]; exact h1, by rw [he i hi0 hin]; exact h2⟩
  · intro x y hx0 hxw hy0 hyh
    obtain ⟨i, hi0, hin, h1, h2⟩ := FractalThread.band_exists h n y hn hy0 hyh
    have hone : plots_at (FractalThread.compute_image_thread w
        (FractalThread.args w h n xmin xmax ymin ymax maxiter i)) x y = 1 := by
      rw [plots_at_thread, hs i hi0 hin, he i hi0 hin, if_pos ⟨⟨h1, h2⟩, hx0, hxw⟩]
    have hzero : ∀ k, 0 ≤ k → k < n → k ≠ i →
        plots_at (FractalThread.compute_image_thread w
          (FractalThread.args w h n xmin xmax ymin ymax maxiter k)) x y = 0 := by
      intro k hk0 hkn hki
      rw [plots_at_thread, hs k hk0 hkn, he k hk0 hkn, if_neg]
      rintro ⟨hb, _⟩
      exact hki (FractalThread.band_unique h n k i y hn hh hb ⟨h1, h2⟩)
    refine ⟨⟨i, hi0, hin, hone, hzero⟩, ?_⟩
    rw [plots_at_static w h n xmin xmax ymin ymax maxiter hh hn hr,
      if_pos ⟨⟨hx0, hxw⟩, hy0, hyh⟩]
  · intro x y hout
    rw [plots_at_static w h n xmin xmax ymin ymax maxiter hh hn hr, if_neg]
    rintro ⟨⟨a1, a2⟩, a3, a4⟩
    exact hout ⟨a1, a2, a3, a4⟩

theorem static_partition_covers_once_witness :
    plots_at (FractalThread.compute_image 640 480 4 (-3/2) (1/2) (-1) 1 500).flatten 100 200
      = 1 :=
  ((static_partition_covers_once 640 480 4 (-3/2) (1/2) (-1) 1 500 (by decide) (by decide)
    (by decide)).2.2.2.1 100 200 (by decide) (by decide) (by decide) (by decide)).2

/-! ## The escape-time evaluator (C7, C8) -/

theorem compute_point_loop_step (alpha : Cplx) (max : Int) (z : Cplx) (iter : Int)
    (h : z.abs_sq < 16 ∧ iter < max) :
    compute_point_loop alpha max z iter
      = compute_point_loop alpha max (Cplx.add z.sq alpha) (iter + 1) := by
  rw [compute_point_loop, if_pos h]

theorem compute_point_loop_stop (alpha : Cplx) (max : Int) (z : Cplx) (iter : Int)
    (h : ¬ (z.abs_sq < 16 ∧ iter < max)) :
    compute_point_loop alpha max z iter = iter := by
  rw [compute_point_loop, if_neg h]

theorem compute_point_loop_ge (alpha : Cplx) (max : Int) (z : Cplx) (iter : Int) :
    iter ≤ compute_point_loop alpha max z iter := by
  induction z, iter using compute_point_loop.induct alpha max with
  | case1 z iter h ih =>
    rw [compute_point_loop_step alpha max z iter h]
    omega
  | case2 z iter h =>
    rw [compute_point_loop_stop alpha max z iter h]

theorem compute_point_loop_le (alpha : Cplx) (max : Int) (z : Cplx) (iter : Int)
    (hle : iter ≤ max) : compute_point_loop alpha max z iter ≤ max := by
  induction z, iter using compute_point_loop.induct alpha max with
  | case1 z iter h ih =>
    rw [compute_point_loop_step alpha max z iter h]
    exact ih (by omega)
  | case2 z iter h =>
    rw [compute_point_loop_stop alpha max z iter h]
    exact hle

theorem compute_point_loop_mono (alpha : Cplx) (c1 c2 : Int) (hc : c1 ≤ c2) (z : Cplx)
    (iter : Int) :
    compute_point_loop alpha c1 z iter ≤ compute_point_loop alpha c2 z iter := by
  induction z, iter using compute_point_loop.induct alpha c1 with
  | case1 z iter h ih =>
    rw [compute_point_loop_step alpha c1 z iter h,
      compute_point_loop_step alpha c2 z iter ⟨h.1, by omega⟩]
    exact ih
  | case2 z iter h =>
    rw [compute_point_loop_stop alpha c1 z iter h]
    exact compute_point_loop_ge alpha c2 z iter

theorem compute_point_loop_saturates (alpha : Cplx) (c1 c2 : Int) (hc : c1 ≤ c2) (z : Cplx)
    (iter : Int) (hlt : compute_point_loop alpha c1 z iter < c1) :
    compute_point_loop alpha c2 z iter = compute_point_loop alpha c1 z iter := by
  induction z, iter using compute_point_loop.induct alpha c1 with
  | case1 z iter h ih =>
    rw [compute_point_loop_step alpha c1 z iter h] at hlt ⊢
    rw [compute_point_loop_step alpha c2 z iter ⟨h.1, by omega⟩]
    exact ih hlt
  | case2 z iter h =>
    rw [compute_point_loop_stop alpha c1 z iter h] at hlt ⊢
    apply compute_point_loop_stop
    rintro ⟨h1, _⟩
    exact h ⟨h1, hlt⟩

/-- C7. For every coordinate and every cap `>= 0`, `compute_point` (a total
function: its loop terminates, the counter `iter` rising toward `max`)
returns a count between `0` and the cap. -/
theorem compute_point_in_range (x y : ℚ) (cap : Int) (hcap : 0 ≤ cap) :
    0 ≤ compute_point x y cap ∧ compute_point x y cap ≤ cap :=
  ⟨compute_point_loop_ge _ _ _ _, compute_point_loop_le _ _ _ _ hcap⟩

theorem compute_point_in_range_witness :
    0 ≤ compute_point 2 2 500 ∧ compute_point 2 2 500 ≤ 500 :=
  compute_point_in_range 2 2 500 (by decide)

/-- C8. `compute_point` is monotone in the cap, and once the orbit escapes
before the cap a larger cap returns the same count. -/
theorem compute_point_mono_saturating (x y : ℚ) (c1 c2 : Int) (hc : c1 ≤ c2) :
    compute_point x y c1 ≤ compute_point x y c2 ∧
    (compute_point x y c1 < c1 → compute_point x y c2 = compute_point x y c1) :=
  ⟨compute_point_loop_mono _ c1 c2 hc _ _, compute_point_loop_saturates _ c1 c2 hc _ _⟩

theorem compute_point_mono_saturating_witness :
    compute_point 2 2 250 ≤ compute_point 2 2 500 ∧
    (compute_point 2 2 250 < 250 → compute_point 2 2 500 = compute_point 2 2 250) :=
  compute_point_mono_saturating 2 2 250 500 (by decide)

/-- The orbit of `(-3/2, -1)` leaves the disc at the third step. -/
theorem compute_point_corner (max : Int) (h : 3 ≤ max) : compute_point (-3/2) (-1) max = 3 := by
  unfold compute_point
  rw [compute_point_loop_step _ _ _ _ (by constructor <;> [norm_num [Cplx.abs_sq]; omega]),
    compute_point_loop_step _ _ _ _ (by constructor <;> [norm_num [Cplx.abs_sq, Cplx.add, Cplx.sq]; omega]),
    compute_point_loop_step _ _ _ _ (by constructor <;> [norm_num [Cplx.abs_sq, Cplx.add, Cplx.sq]; omega]),
    compute_point_loop_stop _ _ _ _ (by norm_num [Cplx.abs_sq, Cplx.add, Cplx.sq])]
  norm_num

theorem to_int_of_nonneg (d : ℚ) (h : 0 ≤ d) : to_int d = ⌊d⌋ := by
  unfold to_int
  rw [Int.tdiv_eq_ediv (Rat.num_nonneg.2 h) (by exact_mod_cast Nat.zero_le _)]
  exact (Rat.floor_def' d).symm

theorem to_int_eq (d : ℚ) (z : Int) (h0 : 0 ≤ d) (h1 : (z : ℚ) ≤ d) (h2 : d < z + 1) :
    to_int d = z := by
  rw [to_int_of_nonneg d h0, Int.floor_eq_iff]
  exact ⟨h1, h2⟩

theorem gradient_3_500 : gradient 3 500 = ⟨0, 0, 12⟩ := by
  unfold gradient
  rw [if_neg (by decide)]
  simp only [RGB.mk.injEq]
  refine ⟨to_int_eq _ _ ?_ ?_ ?_, to_int_eq _ _ ?_ ?_ ?_, to_int_eq _ _ ?_ ?_ ?_⟩ <;> norm_num

theorem gradient_3_250 : gradient 3 250 = ⟨0, 0, 25⟩ := by
  unfold gradient
  rw [if_neg (by decide)]
  simp only [RGB.mk.injEq]
  refine ⟨to_int_eq _ _ ?_ ?_ ?_, to_int_eq _ _ ?_ ?_ ?_, to_int_eq _ _ ?_ ?_ ?_⟩ <;> norm_num

/-! ## The framebuffer: static workers against the reference (C5) -/

/-- When every plot of a trace carries the colour `c` assigns to its pixel, the
framebuffer shows `c x y` at the pixels that were plotted and nothing elsewhere. -/
theorem framebuffer_of_uniform (tr : List Plot) (c : Int → Int → RGB)
    (hc : ∀ p ∈ tr, p.colour = c p.x p.y) (x y : Int) :
    framebuffer tr x y = if plots_at tr x y = 0 then none else some (c x y) := by
  unfold framebuffer plots_at
  rw [List.countP_eq_length_filter]
  cases hl : (tr.filter (fun p => p.x = x ∧ p.y = y)).getLast? with
  | none =>
    rw [List.getLast?_eq_none_iff] at hl
    rw [hl]
    rfl
  | some a =>
    have hm : a ∈ tr.filter (fun p => p.x = x ∧ p.y = y) :=
      List.mem_of_mem_getLast? (by rw [hl]; exact rfl)
    have hne : (tr.filter (fun p => p.x = x ∧ p.y = y)).length ≠ 0 := by
      intro h0
      rw [List.length_eq_zero] at h0
      rw [h0] at hm
      simp at hm
    rw [if_neg hne]
    rw [List.mem_filter] at hm
    have hp : a.x = x ∧ a.y = y := by simpa using hm.2
    simp only [Option.map_some']
    rw [hc a hm.1, hp.1, hp.2]

theorem framebuffer_eq_none_iff (tr : List Plot) (x y : Int) :
    framebuffer tr x y = none ↔ plots_at tr x y = 0 := by
  unfold framebuffer plots_at
  rw [List.countP_eq_length_filter, Option.map_eq_none', List.getLast?_eq_none_iff,
    List.length_eq_zero]

theorem thread_plot_colour (w h n : Int) (xmin xmax ymin ymax : ℚ) (maxiter i : Int) :
    ∀ p ∈ FractalThread.compute_image_thread w
        (FractalThread.args w h n xmin xmax ymin ymax maxiter i),
      p.colour = gradient (compute_point (xmin + (p.x : ℚ) * (xmax - xmin) / (w : ℚ))
        (ymin + (p.y : ℚ) * (ymax - ymin) / (h : ℚ)) maxiter) maxiter := by
  intro p hp
  unfold FractalThread.compute_image_thread at hp
  simp only [List.mem_flatMap, List.mem_map] at hp
  obtain ⟨j, _, i, _, rfl⟩ := hp
  rfl

theorem reference_plot_colour (w h : Int) (xmin xmax ymin ymax : ℚ) (maxiter : Int) :
    ∀ p ∈ Fractal.compute_image w h xmin xmax ymin ymax maxiter,
      p.colour = gradient (compute_point (xmin + (p.x : ℚ) * (xmax - xmin) / (w : ℚ))
        (ymin + (p.y : ℚ) * (ymax - ymin) / (h : ℚ)) maxiter) maxiter := by
  intro p hp
  unfold Fractal.compute_image at hp
  simp only [List.mem_flatMap, List.mem_map] at hp
  obtain ⟨j, _, i, _, rfl⟩ := hp
  rfl

theorem threads_plot_colour (w h n : Int) (xmin xmax ymin ymax : ℚ) (maxiter : Int) :
    ∀ p ∈ (FractalThread.compute_image w h n xmin xmax ymin ymax maxiter).flatten,
      p.colour = gradient (compute_point (xmin + (p.x : ℚ) * (xmax - xmin) / (w : ℚ))
        (ymin + (p.y : ℚ) * (ymax - ymin) / (h : ℚ)) maxiter) maxiter := by
  intro p hp
  rw [List.mem_flatten] at hp
  obtain ⟨l, hl, hpl⟩ := hp
  unfold FractalThread.compute_image at hl
  rw [List.mem_map] at hl
  obtain ⟨i, _, rfl⟩ := hl
  exact thread_plot_colour w h n xmin xmax ymin ymax maxiter i p hpl

/-- C5 (as amended). Thread-count independence of the static strategy: when
`n * h` fits an `int`, whatever the order in which the plots of the `n`
workers reach the display, the framebuffer equals, pixel for pixel, the one
the single-threaded `compute_image` of `fractal.c` produces. -/
theorem static_matches_reference (w h n : Int) (xmin xmax ymin ymax : ℚ) (maxiter : Int)
    (tr : List Plot) (x y : Int)
    (hh : 0 ≤ h) (hn : 1 ≤ n) (hr : n * h ≤ INT_MAX)
    (htr : tr.Perm (FractalThread.compute_image w h n xmin xmax ymin ymax maxiter).flatten) :
    framebuffer tr x y
      = framebuffer (Fractal.compute_image w h xmin xmax ymin ymax maxiter) x y := by
  have hcount : plots_at tr x y
      = plots_at (Fractal.compute_image w h xmin xmax ymin ymax maxiter) x y := by
    have hperm : plots_at tr x y
        = plots_at (FractalThread.compute_image w h n xmin xmax ymin ymax maxiter).flatten x y :=
      htr.countP_eq _
    rw [hperm, plots_at_static w h n xmin xmax ymin ymax maxiter hh hn hr, plots_at_reference]
    by_cases hin : (0 ≤ x ∧ x < w) ∧ (0 ≤ y ∧ y < h)
    · rw [if_pos hin, if_pos ⟨hin.2, hin.1⟩]
    · rw [if_neg hin, if_neg (fun hc => hin ⟨hc.2, hc.1⟩)]
  rw [framebuffer_of_uniform tr
      (fun px py => gradient (compute_point (xmin + (px : ℚ) * (xmax - xmin) / (w : ℚ))
        (ymin + (py : ℚ) * (ymax - ymin) / (h : ℚ)) maxiter) maxiter)
      (fun p hp => threads_plot_colour w h n xmin xmax ymin ymax maxiter p (htr.mem_iff.1 hp)),
    framebuffer_of_uniform _
      (fun px py => gradient (compute_point (xmin + (px : ℚ) * (xmax - xmin) / (w : ℚ))
        (ymin + (py : ℚ) * (ymax - ymin) / (h : ℚ)) maxiter) maxiter)
      (reference_plot_colour w h xmin xmax ymin ymax maxiter), hcount]

theorem static_matches_reference_witness :
    framebuffer (FractalThread.compute_image 640 480 4 (-3/2) (1/2) (-1) 1 500).flatten 0 0
      = framebuffer (Fractal.compute_image 640 480 (-3/2) (1/2) (-1) 1 500) 0 0 :=
  static_matches_reference 640 480 4 (-3/2) (1/2) (-1) 1 500 _ 0 0 (by decide) (by decide)
    (by decide) (List.Perm.refl _)

/-- C5, the claim without the bound on `n * h`: on a grid of one column and
`2^30` rows with two workers, `(thread_id + 1) * height` leaves the `int`
range for the second worker, its band is empty, and row `2^29` is drawn by
the reference but by no worker. -/
theorem static_differs_on_overflow :
    framebuffer (FractalThread.compute_image 1 1073741824 2 (-3/2) (1/2) (-1) 1 500).flatten
        0 536870912 = none ∧
    framebuffer (Fractal.compute_image 1 1073741824 (-3/2) (1/2) (-1) 1 500) 0 536870912
      ≠ none := by
  constructor
  · rw [framebuffer_eq_none_iff, plots_at_flatten]
    have h2 : for_range 0 2 = [0, 1] := by decide
    unfold FractalThread.compute_image
    rw [h2]
    simp only [List.map_cons, List.map_nil, List.sum_cons, List.sum_nil, plots_at_thread]
    have e0 : FractalThread.band_end
        (FractalThread.args 1 1073741824 2 (-3/2) (1/2) (-1) 1 500 0) = 536870912 := by decide
    have e1 : FractalThread.band_end
        (FractalThread.args 1 1073741824 2 (-3/2) (1/2) (-1) 1 500 1) = -1073741824 := by decide
    rw [e0, e1]
    simp
  · rw [Ne, framebuffer_eq_none_iff, plots_at_reference]
    simp

/-! ## The task array and the locked scan (C3) -/

theorem for_range_split (lo hi j : Int) (h1 : lo ≤ j) (h2 : j < hi) :
    for_range lo hi = for_range lo j ++ j :: for_range (j + 1) hi := by
  unfold for_range
  obtain ⟨a, rfl⟩ : ∃ a : Nat, j = lo + a := ⟨(j - lo).toNat, by omega⟩
  obtain ⟨b, rfl⟩ : ∃ b : Nat, hi = lo + a + 1 + b := ⟨(hi - (lo + a + 1)).toNat, by omega⟩
  have e1 : (lo + ↑a + 1 + ↑b - lo).toNat = a + (1 + b) := by omega
  have e2 : (lo + ↑a - lo).toNat = a := by omega
  have e3 : (lo + ↑a + 1 + ↑b - (lo + ↑a + 1)).toNat = b := by omega
  rw [e1, e2, e3, List.range_add, List.map_append]
  have : List.range (1 + b) = 0 :: (List.range b).map Nat.succ := by
    rw [Nat.add_comm, List.range_succ_eq_map]
  rw [this]
  congr 1
  simp only [List.map_cons, List.map_map, Nat.add_zero, List.cons.injEq, true_and]
  apply List.map_congr_left
  intro q _
  simp only [Function.comp]
  push_cast
  omega

namespace FractalTask

theorem tile_set_started (t : List (List Task)) (i j i' j' : Int)
    (hi : 0 ≤ i) (hj : 0 ≤ j) (hi' : 0 ≤ i') (hj' : 0 ≤ j')
    (hil : i.toNat < t.length) (hjl : j.toNat < (t.getD i.toNat []).length) :
    tile (set_started t i j) i' j'
      = if i' = i ∧ j' = j then { tile t i j with started := 1 } else tile t i' j' := by
  unfold set_started tile
  simp only [List.getD_eq_getElem?_getD, List.getElem?_set]
  by_cases h1 : i' = i
  · subst h1
    by_cases h2 : j' = j
    · subst h2
      simp only [List.getD_eq_getElem?_getD, List.getElem?_eq_getElem hil,
        Option.getD_some] at hjl
      simp [hil, hjl, List.getElem?_set]
    · have : j.toNat ≠ j'.toNat := by omega
      simp [hil, h2, this]
  · have : i.toNat ≠ i'.toNat := by omega
    simp [h1, this]

theorem well_formed_bounds (w h : Int) (t : List (List Task)) (hwf : well_formed w h t)
    (i j : Int) (hi0 : 0 ≤ i) (hi : i < Int.tdiv h TASK_SIZE) (hj0 : 0 ≤ j)
    (hj : j < Int.tdiv w TASK_SIZE) :
    i.toNat < t.length ∧ j.toNat < (t.getD i.toNat []).length ∧
    (tile t i j).x = j * TASK_SIZE ∧ (tile t i j).y = i * TASK_SIZE := by
  obtain ⟨hlen, hrows⟩ := hwf
  obtain ⟨hrl, hcols⟩ := hrows i ((mem_for_range _ _ _).2 ⟨hi0, hi⟩)
  obtain ⟨hx, hy⟩ := hcols j ((mem_for_range _ _ _).2 ⟨hj0, hj⟩)
  refine ⟨by omega, by omega, hx, hy⟩

theorem well_formed_set_started (w h : Int) (t : List (List Task)) (hwf : well_formed w h t)
    (i j : Int) (hi0 : 0 ≤ i) (hi : i < Int.tdiv h TASK_SIZE) (hj0 : 0 ≤ j)
    (hj : j < Int.tdiv w TASK_SIZE) : well_formed w h (set_started t i j) := by
  obtain ⟨hb1, hb2, _, _⟩ := well_formed_bounds w h t hwf i j hi0 hi hj0 hj
  refine ⟨?_, ?_⟩
  · unfold set_started
    rw [List.length_set]
    exact hwf.1
  · intro i' hi'
    rw [mem_for_range] at hi'
    refine ⟨?_, ?_⟩
    · have := (hwf.2 i' ((mem_for_range _ _ _).2 hi')).1
      unfold set_started
      simp only [List.getD_eq_getElem?_getD, List.getElem?_set] at this ⊢
      by_cases e : i.toNat = i'.toNat
      · rw [if_pos e, if_pos hb1]
        simp only [Option.getD_some, List.length_set]
        rw [e]
        exact this
      · rw [if_neg e]
        exact this
    · intro j' hj'
      rw [mem_for_range] at hj'
      obtain ⟨_, _, hx, hy⟩ := well_formed_bounds w h t hwf i' j' hi'.1 hi'.2 hj'.1 hj'.2
      rw [tile_set_started t i j i' j' hi0 hj0 hi'.1 hj'.1 hb1 hb2]
      split_ifs with hc
      · obtain ⟨rfl, rfl⟩ := hc
        exact ⟨hx, hy⟩
      · exact ⟨hx, hy⟩

theorem scan_row_none (i : Int) (js : List Int) (st : scan_state)
    (hno : ∀ j ∈ js, (tile st.tasks i j).started ≠ 0) : scan_row i js st = st := by
  induction js with
  | nil => rfl
  | cons j js ih =>
    rw [scan_row, if_neg (hno j (List.mem_cons_self _ _))]
    exact ih (fun j' hj' => hno j' (List.mem_cons_of_mem _ hj'))

theorem scan_row_hit (i : Int) (js1 js2 : List Int) (j : Int) (st : scan_state)
    (hno : ∀ j' ∈ js1, (tile st.tasks i j').started ≠ 0)
    (hj : (tile st.tasks i j).started = 0) :
    scan_row i (js1 ++ j :: js2) st
      = { tasks := set_started st.tasks i j, xtask := (tile (set_started st.tasks i j) i j).x,
          ytask := (tile (set_started st.tasks i j) i j).y } := by
  induction js1 with
  | nil =>
    rw [List.nil_append, scan_row, if_pos hj]
  | cons a js1 ih =>
    rw [List.cons_append, scan_row, if_neg (hno a (List.mem_cons_self _ _))]
    exact ih (fun j' hj' => hno j' (List.mem_cons_of_mem _ hj'))

theorem scan_rows_none (w : Int) (is : List Int) (t : List (List Task))
    (hno : ∀ i ∈ is, ∀ j ∈ for_range 0 (Int.tdiv w TASK_SIZE), (tile t i j).started ≠ 0) :
    scan_rows w is ⟨t, -1, -1⟩ = ⟨t, -1, -1⟩ := by
  induction is with
  | nil => rfl
  | cons i is ih =>
    rw [scan_rows]
    rw [scan_row_none i _ _ (hno i (List.mem_cons_self _ _)), if_neg (by simp)]
    exact ih (fun i' hi' => hno i' (List.mem_cons_of_mem _ hi'))

theorem scan_rows_hit (w : Int) (is1 is2 : List Int) (i j : Int) (t : List (List Task))
    (hno : ∀ i' ∈ is1, ∀ j' ∈ for_range 0 (Int.tdiv w TASK_SIZE), (tile t i' j').started ≠ 0)
    (hj0 : 0 ≤ j) (hjw : j < Int.tdiv w TASK_SIZE)
    (hnoj : ∀ j', 0 ≤ j' → j' < j → (tile t i j').started ≠ 0)
    (hj : (tile t i j).started = 0)
    (hx : (tile (set_started t i j) i j).x ≠ -1) (hy : (tile (set_started t i j) i j).y ≠ -1) :
    scan_rows w (is1 ++ i :: is2) ⟨t, -1, -1⟩
      = { tasks := set_started t i j, xtask := (tile (set_started t i j) i j).x,
          ytask := (tile (set_started t i j) i j).y } := by
  induction is1 with
  | nil =>
    rw [List.nil_append, scan_rows]
    rw [for_range_split 0 _ j hj0 hjw, scan_row_hit i _ _ j _ ?_ hj, if_pos ⟨hx, hy⟩]
    intro j' hj'
    rw [mem_for_range] at hj'
    exact hnoj j' hj'.1 hj'.2
  | cons a is1 ih =>
    rw [List.cons_append, scan_rows]
    rw [scan_row_none a _ _ (hno a (List.mem_cons_self _ _)), if_neg (by simp)]
    exact ih (fun i' hi' => hno i' (List.mem_cons_of_mem _ hi'))

/-- The claim when nothing is left: the array is returned as it was. -/
theorem claim_next_none (w h : Int) (t : List (List Task))
    (hno : ∀ i j, 0 ≤ i → i < Int.tdiv h TASK_SIZE → 0 ≤ j → j < Int.tdiv w TASK_SIZE →
      (tile t i j).started ≠ 0) :
    claim_next w h t = (t, none) := by
  unfold claim_next
  simp only []
  rw [scan_rows_none w _ t ?_, if_pos (by simp)]
  intro i hi j hj
  rw [mem_for_range] at hi hj
  exact hno i j hi.1 hi.2 hj.1 hj.2

/-- The claim when tile `(i, j)` is the first in row-major order with
`started == 0`. -/
theorem claim_next_first (w h : Int) (t : List (List Task)) (hwf : well_formed w h t)
    (i j : Int) (hi0 : 0 ≤ i) (hi : i < Int.tdiv h TASK_SIZE) (hj0 : 0 ≤ j)
    (hj : j < Int.tdiv w TASK_SIZE) (hz : (tile t i j).started = 0)
    (hfirst : ∀ i' j', 0 ≤ i' → i' < Int.tdiv h TASK_SIZE → 0 ≤ j' → j' < Int.tdiv w TASK_SIZE →
      (i' < i ∨ (i' = i ∧ j' < j)) → (tile t i' j').started ≠ 0) :
    claim_next w h t = (set_started t i j, some (j * TASK_SIZE, i * TASK_SIZE)) := by
  obtain ⟨hb1, hb2, hx, hy⟩ := well_formed_bounds w h t hwf i j hi0 hi hj0 hj
  have htile := tile_set_started t i j i j hi0 hj0 hi0 hj0 hb1 hb2
  rw [if_pos ⟨rfl, rfl⟩] at htile
  have hx' : (tile (set_started t i j) i j).x = j * TASK_SIZE := by rw [htile]; exact hx
  have hy' : (tile (set_started t i j) i j).y = i * TASK_SIZE := by rw [htile]; exact hy
  unfold claim_next
  simp only []
  rw [for_range_split 0 _ i hi0 hi, scan_rows_hit w _ _ i j t ?_ hj0 hj ?_ hz ?_ ?_]
  · simp only [hx', hy']
    rw [if_neg]
    unfold TASK_SIZE
    omega
  · intro i' hi' j' hj'
    rw [mem_for_range] at hi' hj'
    exact hfirst i' j' hi'.1 (by omega) hj'.1 hj'.2 (Or.inl hi'.2)
  · intro j' h0 h1
    exact hfirst i j' hi0 hi h0 (by omega) (Or.inr ⟨rfl, h1⟩)
  · rw [hx']; unfold TASK_SIZE; omega
  · rw [hy']; unfold TASK_SIZE; omega

/-- Among the tiles with `started == 0`, when there is one, there is a first
in row-major order. -/
theorem exists_first_unstarted (R C : Int) (t : List (List Task))
    (hex : ∃ i j, 0 ≤ i ∧ i < R ∧ 0 ≤ j ∧ j < C ∧ (tile t i j).started = 0) :
    ∃ i j, 0 ≤ i ∧ i < R ∧ 0 ≤ j ∧ j < C ∧ (tile t i j).started = 0 ∧
      ∀ i' j', 0 ≤ i' → i' < R → 0 ≤ j' → j' < C → (i' < i ∨ (i' = i ∧ j' < j)) →
        (tile t i' j').started ≠ 0 := by
  obtain ⟨i1, j1, hi0, hi1, hj0, hj1, hz⟩ := hex
  obtain ⟨i, ⟨hia, hib, j2, hj2a, hj2b, hz2⟩, hmin⟩ :=
    Int.exists_least_of_bdd
      (P := fun i => 0 ≤ i ∧ i < R ∧ ∃ j, 0 ≤ j ∧ j < C ∧ (tile t i j).started = 0)
      ⟨0, fun z hz => hz.1⟩ ⟨i1, hi0, hi1, j1, hj0, hj1, hz⟩
  obtain ⟨j, ⟨hja, hjb, hzj⟩, hminj⟩ :=
    Int.exists_least_of_bdd
      (P := fun j => 0 ≤ j ∧ j < C ∧ (tile t i j).started = 0)
      ⟨0, fun z hz => hz.1⟩ ⟨j2, hj2a, hj2b, hz2⟩
  refine ⟨i, j, hia, hib, hja, hjb, hzj, ?_⟩
  intro i' j' h1 h2 h3 h4 hlt hzero
  rcases hlt with hlt | ⟨rfl, hlt⟩
  · have := hmin i' ⟨h1, h2, j', h3, h4, hzero⟩
    omega
  · have := hminj j' ⟨h3, h4, hzero⟩
    omega

/-- C3. The locked scan of `compute_image_task` on a task array of the shape
`init_tasks` builds, whatever its `started` flags: when tile `(i, j)` is the
first in row-major order with `started == 0`, the scan returns its
coordinates, sets that flag to 1 and changes no other field of any tile; the
worker is told to leave (`none`) exactly when no tile has `started == 0`, and
then the array is unchanged. -/
theorem claim_next_spec (w h : Int) (t : List (List Task)) (hwf : well_formed w h t) :
    (∀ i j, 0 ≤ i → i < Int.tdiv h TASK_SIZE → 0 ≤ j → j < Int.tdiv w TASK_SIZE →
      (tile t i j).started = 0 →
      (∀ i' j', 0 ≤ i' → i' < Int.tdiv h TASK_SIZE → 0 ≤ j' → j' < Int.tdiv w TASK_SIZE →
        (i' < i ∨ (i' = i ∧ j' < j)) → (tile t i' j').started ≠ 0) →
      (claim_next w h t).2 = some ((tile t i j).x, (tile t i j).y) ∧
      well_formed w h (claim_next w h t).1 ∧
      ∀ i' j', 0 ≤ i' → i' < Int.tdiv h TASK_SIZE → 0 ≤ j' → j' < Int.tdiv w TASK_SIZE →
        tile (claim_next w h t).1 i' j'
          = if i' = i ∧ j' = j then { tile t i j with started := 1 } else tile t i' j') ∧
    ((claim_next w h t).2 = none ↔
      ∀ i j, 0 ≤ i → i < Int.tdiv h TASK_SIZE → 0 ≤ j → j < Int.tdiv w TASK_SIZE →
        (tile t i j).started ≠ 0) ∧
    ((claim_next w h t).2 = none → (claim_next w h t).1 = t) := by
  have hhit : ∀ i j, 0 ≤ i → i < Int.tdiv h TASK_SIZE → 0 ≤ j → j < Int.tdiv w TASK_SIZE →
      (tile t i j).started = 0 →
      (∀ i' j', 0 ≤ i' → i' < Int.tdiv h TASK_SIZE → 0 ≤ j' → j' < Int.tdiv w TASK_SIZE →
        (i' < i ∨ (i' = i ∧ j' < j)) → (tile t i' j').started ≠ 0) →
      claim_next w h t = (set_started t i j, some ((tile t i j).x, (tile t i j).y)) := by
    intro i j hi0 hi hj0 hj hz hfirst
    obtain ⟨_, _, hx, hy⟩ := well_formed_bounds w h t hwf i j hi0 hi hj0 hj
    rw [hx, hy]
    exact claim_next_first w h t hwf i j hi0 hi hj0 hj hz hfirst
  have hiff : (claim_next w h t).2 = none ↔
      ∀ i j, 0 ≤ i → i < Int.tdiv h TASK_SIZE → 0 ≤ j → j < Int.tdiv w TASK_SIZE →
        (tile t i j).started ≠ 0 := by
    constructor
    · intro hnone i1 j1 hi0 hi1 hj0 hj1 hz
      obtain ⟨i, j, a1, a2, a3, a4, a5, a6⟩ :=
        exists_first_unstarted _ _ t ⟨i1, j1, hi0, hi1, hj0, hj1, hz⟩
      rw [hhit i j a1 a2 a3 a4 a5 a6] at hnone
      simp at hnone
    · intro hno
      rw [claim_next_none w h t hno]
  refine ⟨?_, hiff, ?_⟩
  · intro i j hi0 hi hj0 hj hz hfirst
    obtain ⟨hb1, hb2, _, _⟩ := well_formed_bounds w h t hwf i j hi0 hi hj0 hj
    rw [hhit i j hi0 hi hj0 hj hz hfirst]
    refine ⟨rfl, well_formed_set_started w h t hwf i j hi0 hi hj0 hj, ?_⟩
    intro i' j' hi0' _ hj0' _
    exact tile_set_started t i j i' j' hi0 hj0 hi0' hj0' hb1 hb2
  · intro hnone
    rw [claim_next_none w h t (hiff.1 hnone)]

theorem claim_next_spec_witness :
    (∀ i j, 0 ≤ i → i < Int.tdiv 20 TASK_SIZE → 0 ≤ j → j < Int.tdiv 40 TASK_SIZE →
      (tile [[⟨0, 0, 1⟩, ⟨20, 0, 0⟩]] i j).started = 0 →
      (∀ i' j', 0 ≤ i' → i' < Int.tdiv 20 TASK_SIZE → 0 ≤ j' → j' < Int.tdiv 40 TASK_SIZE →
        (i' < i ∨ (i' = i ∧ j' < j)) → (tile [[⟨0, 0, 1⟩, ⟨20, 0, 0⟩]] i' j').started ≠ 0) →
      (claim_next 40 20 [[⟨0, 0, 1⟩, ⟨20, 0, 0⟩]]).2
        = some ((tile [[⟨0, 0, 1⟩, ⟨20, 0, 0⟩]] i j).x, (tile [[⟨0, 0, 1⟩, ⟨20, 0, 0⟩]] i j).y) ∧
      well_formed 40 20 (claim_next 40 20 [[⟨0, 0, 1⟩, ⟨20, 0, 0⟩]]).1 ∧
      ∀ i' j', 0 ≤ i' → i' < Int.tdiv 20 TASK_SIZE → 0 ≤ j' → j' < Int.tdiv 40 TASK_SIZE →
        tile (claim_next 40 20 [[⟨0, 0, 1⟩, ⟨20, 0, 0⟩]]).1 i' j'
          = if i' = i ∧ j' = j then { tile [[⟨0, 0, 1⟩, ⟨20, 0, 0⟩]] i j with started := 1 }
            else tile [[⟨0, 0, 1⟩, ⟨20, 0, 0⟩]] i' j') ∧
    ((claim_next 40 20 [[⟨0, 0, 1⟩, ⟨20, 0, 0⟩]]).2 = none ↔
      ∀ i j, 0 ≤ i → i < Int.tdiv 20 TASK_SIZE → 0 ≤ j → j < Int.tdiv 40 TASK_SIZE →
        (tile [[⟨0, 0, 1⟩, ⟨20, 0, 0⟩]] i j).started ≠ 0) ∧
    ((claim_next 40 20 [[⟨0, 0, 1⟩, ⟨20, 0, 0⟩]]).2 = none →
      (claim_next 40 20 [[⟨0, 0, 1⟩, ⟨20, 0, 0⟩]]).1 = [[⟨0, 0, 1⟩, ⟨20, 0, 0⟩]]) :=
  claim_next_spec 40 20 [[⟨0, 0, 1⟩, ⟨20, 0, 0⟩]] (by decide)

/-! ## Successive claims from a fresh array (C4) -/

theorem row_major_lt (C i j i' j' : Int) (hj : 0 ≤ j) (hj0 : 0 ≤ j') (hj' : j' < C)
    (hlt : i' < i ∨ (i' = i ∧ j' < j)) : i' * C + j' < i * C + j := by
  rcases hlt with h | ⟨rfl, h⟩
  · have : (i' + 1) * C ≤ i * C := Int.mul_le_mul_of_nonneg_right (by omega) (by omega)
    have e : (i' + 1) * C = i' * C + C := by ring
    omega
  · omega

theorem row_major_index (C k i j : Int) (hC : 0 < C) (hj0 : 0 ≤ j) (hj : j < C) :
    i * C + j = k ↔ (i = k / C ∧ j = k % C) := by
  constructor
  · intro e
    have := (Int.ediv_emod_unique (a := k) (q := i) (r := j) hC).2 ⟨by rw [← e]; ring, hj0, hj⟩
    exact ⟨this.1.symm, this.2.symm⟩
  · rintro ⟨rfl, rfl⟩
    have := Int.ediv_add_emod k C
    rw [Int.mul_comm] at this
    exact this

theorem row_major_bound (R C k : Int) (hC : 0 < C) (hk0 : 0 ≤ k) (hk : k < R * C) :
    0 ≤ k / C ∧ k / C < R ∧ 0 ≤ k % C ∧ k % C < C :=
  ⟨Int.ediv_nonneg hk0 (le_of_lt hC), Int.ediv_lt_of_lt_mul hC hk,
    Int.emod_nonneg k (ne_of_gt hC), Int.emod_lt_of_pos k hC⟩

/-- One claim on an array whose first `k` tiles are started returns tile
number `k` and starts it. -/
theorem claim_next_at (w h : Int) (t : List (List Task)) (k : Int)
    (hwf : well_formed w h t) (hp : claimed_first w h k t)
    (hC : 0 < Int.tdiv w TASK_SIZE) (hk0 : 0 ≤ k)
    (hk : k < Int.tdiv h TASK_SIZE * Int.tdiv w TASK_SIZE) :
    (claim_next w h t).2
      = some (k % Int.tdiv w TASK_SIZE * TASK_SIZE, k / Int.tdiv w TASK_SIZE * TASK_SIZE) ∧
    well_formed w h (claim_next w h t).1 ∧ claimed_first w h (k + 1) (claim_next w h t).1 := by
  obtain ⟨b1, b2, b3, b4⟩ := row_major_bound _ _ k hC hk0 hk
  have hidx := (row_major_index (Int.tdiv w TASK_SIZE) k _ _ hC b3 b4).2 ⟨rfl, rfl⟩
  have hz : (tile t (k / Int.tdiv w TASK_SIZE) (k % Int.tdiv w TASK_SIZE)).started = 0 := by
    rw [hp _ _ b1 b2 b3 b4, if_neg (by omega)]
  have hfirst : ∀ i' j', 0 ≤ i' → i' < Int.tdiv h TASK_SIZE → 0 ≤ j' → j' < Int.tdiv w TASK_SIZE →
      (i' < k / Int.tdiv w TASK_SIZE ∨ (i' = k / Int.tdiv w TASK_SIZE ∧ j' < k % Int.tdiv w TASK_SIZE)) →
      (tile t i' j').started ≠ 0 := by
    intro i' j' h1 h2 h3 h4 hlt
    have := row_major_lt (Int.tdiv w TASK_SIZE) _ _ i' j' b3 h3 h4 hlt
    rw [hp i' j' h1 h2 h3 h4, if_pos (by omega)]
    decide
  obtain ⟨hb1, hb2, _, _⟩ := well_formed_bounds w h t hwf _ _ b1 b2 b3 b4
  rw [claim_next_first w h t hwf _ _ b1 b2 b3 b4 hz hfirst]
  refine ⟨rfl, well_formed_set_started w h t hwf _ _ b1 b2 b3 b4, ?_⟩
  intro i' j' h1 h2 h3 h4
  show (tile (set_started t _ _) i' j').started = _
  rw [tile_set_started t _ _ i' j' b1 b3 h1 h3 hb1 hb2]
  have hiff := row_major_index (Int.tdiv w TASK_SIZE) k i' j' hC h3 h4
  by_cases hc : i' = k / Int.tdiv w TASK_SIZE ∧ j' = k % Int.tdiv w TASK_SIZE
  · rw [if_pos hc, if_pos (by have := hiff.2 hc; omega)]
  · rw [if_neg hc, hp i' j' h1 h2 h3 h4]
    have hne : i' * Int.tdiv w TASK_SIZE + j' ≠ k := fun e => hc (hiff.1 e)
    by_cases hlt : i' * Int.tdiv w TASK_SIZE + j' < k
    · rw [if_pos hlt, if_pos (by omega)]
    · rw [if_neg hlt, if_neg (by omega)]

/-- A claim on an array whose tiles are all started finds nothing. -/
theorem claim_next_exhausted (w h : Int) (t : List (List Task))
    (hp : claimed_first w h (Int.tdiv h TASK_SIZE * Int.tdiv w TASK_SIZE) t) :
    claim_next w h t = (t, none) := by
  apply claim_next_none
  intro i j h1 h2 h3 h4
  have : (i + 1) * Int.tdiv w TASK_SIZE ≤ Int.tdiv h TASK_SIZE * Int.tdiv w TASK_SIZE :=
    Int.mul_le_mul_of_nonneg_right (by omega) (by omega)
  have e : (i + 1) * Int.tdiv w TASK_SIZE = i * Int.tdiv w TASK_SIZE + Int.tdiv w TASK_SIZE := by
    ring
  rw [hp i j h1 h2 h3 h4, if_pos (by omega)]
  decide

theorem getElem?_for_range (lo hi x : Int) (h1 : lo ≤ x) (h2 : x < hi) :
    (for_range lo hi)[(x - lo).toNat]? = some x := by
  unfold for_range
  rw [List.getElem?_map, List.getElem?_range (by omega)]
  simp only [Option.map_some', Option.some.injEq]
  omega

theorem tile_init_tasks (w h i j : Int) (hi0 : 0 ≤ i) (hi : i < Int.tdiv h TASK_SIZE)
    (hj0 : 0 ≤ j) (hj : j < Int.tdiv w TASK_SIZE) :
    tile (init_tasks w h) i j = ⟨j * TASK_SIZE, i * TASK_SIZE, 0⟩ := by
  have e1 := getElem?_for_range 0 _ i hi0 hi
  have e2 := getElem?_for_range 0 _ j hj0 hj
  rw [Int.sub_zero] at e1 e2
  unfold tile init_tasks
  simp only [List.getD_eq_getElem?_getD, List.getElem?_map, e1, e2, Option.map_some',
    Option.getD_some]

theorem well_formed_init_tasks (w h : Int) : well_formed w h (init_tasks w h) := by
  refine ⟨by simp [init_tasks, for_range], ?_⟩
  intro i hi
  have hi' := (mem_for_range _ _ _).1 hi
  have e1 := getElem?_for_range 0 _ i hi'.1 hi'.2
  rw [Int.sub_zero] at e1
  refine ⟨?_, ?_⟩
  · unfold init_tasks
    simp only [List.getD_eq_getElem?_getD, List.getElem?_map, e1, Option.map_some',
      Option.getD_some, List.length_map]
    simp [for_range]
  · intro j hj
    have hj' := (mem_for_range _ _ _).1 hj
    rw [tile_init_tasks w h i j hi'.1 hi'.2 hj'.1 hj'.2]
    exact ⟨rfl, rfl⟩

theorem claimed_first_init_tasks (w h : Int) (hC : 0 ≤ Int.tdiv w TASK_SIZE) :
    claimed_first w h 0 (init_tasks w h) := by
  intro i j h1 h2 h3 h4
  rw [tile_init_tasks w h i j h1 h2 h3 h4, if_neg]
  have := Int.mul_nonneg h1 hC
  omega

theorem claims_succ (w h : Int) (m : Nat) (t : List (List Task)) :
    claims w h (m + 1) t
      = ((claim_next w h (claims w h m t).1).1,
          (claims w h m t).2 ++ [(claim_next w h (claims w h m t).1).2]) := by
  induction m generalizing t with
  | zero => rfl
  | succ m ih =>
    rw [claims, ih (claim_next w h t).1]
    rfl

/-- The results of `m` successive claims on an array whose first `k` tiles
are started: tiles `k`, `k+1`, ... in row-major order. -/
theorem claims_from (w h : Int) (hC : 0 < Int.tdiv w TASK_SIZE) (m : Nat) :
    ∀ (t : List (List Task)) (k : Int), well_formed w h t → claimed_first w h k t → 0 ≤ k →
      k + m ≤ Int.tdiv h TASK_SIZE * Int.tdiv w TASK_SIZE →
      (claims w h m t).2 = (List.range m).map (fun (q : Nat) =>
        some ((k + q) % Int.tdiv w TASK_SIZE * TASK_SIZE,
              (k + q) / Int.tdiv w TASK_SIZE * TASK_SIZE)) ∧
      well_formed w h (claims w h m t).1 ∧ claimed_first w h (k + m) (claims w h m t).1 := by
  induction m with
  | zero =>
    intro t k hwf hp _ _
    refine ⟨rfl, hwf, ?_⟩
    simpa using hp
  | succ m ih =>
    intro t k hwf hp hk0 hk
    obtain ⟨c1, c2, c3⟩ := claim_next_at w h t k hwf hp hC hk0 (by push_cast at hk; omega)
    obtain ⟨d1, d2, d3⟩ := ih (claim_next w h t).1 (k + 1) c2 c3 (by omega)
      (by push_cast at hk; omega)
    rw [claims]
    simp only []
    refine ⟨?_, d2, ?_⟩
    · rw [d1, c1, List.range_succ_eq_map, List.map_cons, List.map_map]
      congr 1
      · simp
      · apply List.map_congr_left
        intro q _
        simp only [Function.comp, Nat.succ_eq_add_one]
        push_cast
        rw [show k + 1 + (q : Int) = k + ((q : Int) + 1) by ring]
    · have e : k + ((m + 1 : Nat) : Int) = k + 1 + (m : Int) := by push_cast; ring
      rw [e]
      exact d3

theorem countP_eq_one_of_nodup {α : Type} [DecidableEq α] (l : List α) (a : α)
    (hnd : l.Nodup) (hmem : a ∈ l) : l.countP (fun r => decide (r = a)) = 1 := by
  have h := List.count_eq_one_of_mem hnd hmem
  rw [List.count] at h
  rw [← h]
  apply List.countP_congr
  intro r _
  simp

/-- C4. From the array `init_tasks` builds, with `N = (h/20)*(w/20)` tiles,
`N` successive claims return a tile each, every tile exactly once and none
twice, and the claim that follows returns nothing. -/
theorem claims_return_each_tile_once (w h : Int) (hw : 0 ≤ w) (hh : 0 ≤ h) :
    (claims w h (Int.tdiv h TASK_SIZE * Int.tdiv w TASK_SIZE).toNat (init_tasks w h)).2.length
      = (Int.tdiv h TASK_SIZE * Int.tdiv w TASK_SIZE).toNat ∧
    (∀ r ∈ (claims w h (Int.tdiv h TASK_SIZE * Int.tdiv w TASK_SIZE).toNat (init_tasks w h)).2,
      ∃ i j, 0 ≤ i ∧ i < Int.tdiv h TASK_SIZE ∧ 0 ≤ j ∧ j < Int.tdiv w TASK_SIZE ∧
        r = some ((tile (init_tasks w h) i j).x, (tile (init_tasks w h) i j).y)) ∧
    (∀ i j, 0 ≤ i → i < Int.tdiv h TASK_SIZE → 0 ≤ j → j < Int.tdiv w TASK_SIZE →
      (claims w h (Int.tdiv h TASK_SIZE * Int.tdiv w TASK_SIZE).toNat (init_tasks w h)).2.countP
        (fun r => decide (r = some ((tile (init_tasks w h) i j).x, (tile (init_tasks w h) i j).y)))
        = 1) ∧
    (claims w h (Int.tdiv h TASK_SIZE * Int.tdiv w TASK_SIZE).toNat (init_tasks w h)).2.Nodup ∧
    (claims w h ((Int.tdiv h TASK_SIZE * Int.tdiv w TASK_SIZE).toNat + 1) (init_tasks w h)).2
      = (claims w h (Int.tdiv h TASK_SIZE * Int.tdiv w TASK_SIZE).toNat (init_tasks w h)).2
          ++ [none] := by
  have hR : 0 ≤ Int.tdiv h TASK_SIZE := by
    rw [Int.tdiv_eq_ediv hh (by decide)]; exact Int.ediv_nonneg hh (by decide)
  have hC : 0 ≤ Int.tdiv w TASK_SIZE := by
    rw [Int.tdiv_eq_ediv hw (by decide)]; exact Int.ediv_nonneg hw (by decide)
  rcases eq_or_lt_of_le hC with hC0 | hCpos
  · -- fewer than 20 columns: there is no tile
    have hN : (Int.tdiv h TASK_SIZE * Int.tdiv w TASK_SIZE).toNat = 0 := by
      rw [← hC0]; simp
    rw [hN, claims_succ]
    have hnone : claim_next w h (init_tasks w h) = (init_tasks w h, none) := by
      apply claim_next_none
      intro i j _ _ h3 h4
      omega
    refine ⟨rfl, ?_, ?_, ?_, ?_⟩
    · intro r hr
      simp [claims] at hr
    · intro i j _ _ h3 h4
      omega
    · simp [claims]
    · simp only [claims]
      rw [hnone]
  · have hN0 : 0 ≤ Int.tdiv h TASK_SIZE * Int.tdiv w TASK_SIZE := Int.mul_nonneg hR hC
    obtain ⟨e, hwf, hp⟩ := claims_from w h hCpos
      (Int.tdiv h TASK_SIZE * Int.tdiv w TASK_SIZE).toNat (init_tasks w h) 0
      (well_formed_init_tasks w h) (claimed_first_init_tasks w h hC) (le_refl 0) (by omega)
    have hmem : ∀ i j, 0 ≤ i → i < Int.tdiv h TASK_SIZE → 0 ≤ j → j < Int.tdiv w TASK_SIZE →
        some ((tile (init_tasks w h) i j).x, (tile (init_tasks w h) i j).y)
          ∈ (claims w h (Int.tdiv h TASK_SIZE * Int.tdiv w TASK_SIZE).toNat (init_tasks w h)).2 := by
      intro i j h1 h2 h3 h4
      rw [e, tile_init_tasks w h i j h1 h2 h3 h4, List.mem_map]
      have hlt : i * Int.tdiv w TASK_SIZE + j < Int.tdiv h TASK_SIZE * Int.tdiv w TASK_SIZE := by
        have : (i + 1) * Int.tdiv w TASK_SIZE ≤ Int.tdiv h TASK_SIZE * Int.tdiv w TASK_SIZE :=
          Int.mul_le_mul_of_nonneg_right (by omega) hC
        have e2 : (i + 1) * Int.tdiv w TASK_SIZE
            = i * Int.tdiv w TASK_SIZE + Int.tdiv w TASK_SIZE := by ring
        omega
      have hge : 0 ≤ i * Int.tdiv w TASK_SIZE + j := by
        have := Int.mul_nonneg h1 hC
        omega
      refine ⟨(i * Int.tdiv w TASK_SIZE + j).toNat, List.mem_range.2 (by omega), ?_⟩
      have hq := (row_major_index (Int.tdiv w TASK_SIZE) (i * Int.tdiv w TASK_SIZE + j) i j
        hCpos h3 h4).1 rfl
      simp only [Int.zero_add, Int.toNat_of_nonneg hge]
      rw [← hq.1, ← hq.2]
    have hnd : (claims w h (Int.tdiv h TASK_SIZE * Int.tdiv w TASK_SIZE).toNat
        (init_tasks w h)).2.Nodup := by
      rw [e]
      refine List.Nodup.map_on ?_ (List.nodup_range _)
      intro a _ b _ hab
      simp only [Int.zero_add, Option.some.injEq, Prod.mk.injEq] at hab
      have ha := Int.ediv_add_emod (a : Int) (Int.tdiv w TASK_SIZE)
      have hb := Int.ediv_add_emod (b : Int) (Int.tdiv w TASK_SIZE)
      have h1 : (a : Int) % Int.tdiv w TASK_SIZE = (b : Int) % Int.tdiv w TASK_SIZE := by
        unfold TASK_SIZE at hab ⊢; omega
      have h2 : (a : Int) / Int.tdiv w TASK_SIZE = (b : Int) / Int.tdiv w TASK_SIZE := by
        unfold TASK_SIZE at hab ⊢; omega
      rw [h1, h2] at ha
      omega
    refine ⟨by rw [e]; simp, ?_, ?_, hnd, ?_⟩
    · intro r hr
      rw [e, List.mem_map] at hr
      obtain ⟨q, hq, rfl⟩ := hr
      rw [List.mem_range] at hq
      obtain ⟨b1, b2, b3, b4⟩ := row_major_bound (Int.tdiv h TASK_SIZE) (Int.tdiv w TASK_SIZE)
        (0 + (q : Int)) hCpos (by omega) (by omega)
      exact ⟨_, _, b1, b2, b3, b4, by rw [tile_init_tasks w h _ _ b1 b2 b3 b4]⟩
    · intro i j h1 h2 h3 h4
      exact countP_eq_one_of_nodup _ _ hnd (hmem i j h1 h2 h3 h4)
    · rw [claims_succ]
      simp only []
      rw [claim_next_exhausted w h _ (by
        have e3 : (0 : Int) + ((Int.tdiv h TASK_SIZE * Int.tdiv w TASK_SIZE).toNat : Int)
            = Int.tdiv h TASK_SIZE * Int.tdiv w TASK_SIZE := by omega
        rw [e3] at hp
        exact hp)]

theorem claims_return_each_tile_once_witness :
    (claims 40 20 (Int.tdiv 20 TASK_SIZE * Int.tdiv 40 TASK_SIZE).toNat (init_tasks 40 20)).2.Nodup ∧
    (claims 40 20 ((Int.tdiv 20 TASK_SIZE * Int.tdiv 40 TASK_SIZE).toNat + 1) (init_tasks 40 20)).2
      = (claims 40 20 (Int.tdiv 20 TASK_SIZE * Int.tdiv 40 TASK_SIZE).toNat (init_tasks 40 20)).2
          ++ [none] :=
  (claims_return_each_tile_once 40 20 (by decide) (by decide)).2.2.2

/-! ## What the tiles draw (C9, C2, C6) -/

theorem plots_at_draw_tile (w h : Int) (v : Viewport) (xtask ytask x y : Int) :
    plots_at (draw_tile w h v xtask ytask) x y
      = if (xtask ≤ x ∧ x < xtask + 20) ∧ (ytask ≤ y ∧ y < ytask + 20) then 1 else 0 := by
  unfold draw_tile
  rw [plots_at_raster _ _ _ xtask ytask (fun _ _ => rfl) (fun _ _ => rfl),
    count_for_range, count_for_range]
  have e1 : (0 ≤ y - ytask ∧ y - ytask < 20) ↔ (ytask ≤ y ∧ y < ytask + 20) := by omega
  have e2 : (0 ≤ x - xtask ∧ x - xtask < 20) ↔ (xtask ≤ x ∧ x < xtask + 20) := by omega
  simp only [e1, e2]
  by_cases h1 : xtask ≤ x ∧ x < xtask + 20 <;> by_cases h2 : ytask ≤ y ∧ y < ytask + 20 <;>
    simp [h1, h2]

/-- The worker on its own, started on an array whose first `k` tiles are
started and given enough fuel, draws the remaining tiles in row-major order
and returns. -/
theorem compute_image_task_from (w h : Int) (v : Viewport) (hC : 0 < Int.tdiv w TASK_SIZE)
    (m : Nat) :
    ∀ (t : List (List Task)) (k : Int) (fuel : Nat), well_formed w h t →
      claimed_first w h k t → 0 ≤ k →
      k + m = Int.tdiv h TASK_SIZE * Int.tdiv w TASK_SIZE → m < fuel →
      ∃ t1, compute_image_task w h v fuel t = some (t1, (List.range m).flatMap (fun (q : Nat) =>
        draw_tile w h v ((k + q) % Int.tdiv w TASK_SIZE * TASK_SIZE)
          ((k + q) / Int.tdiv w TASK_SIZE * TASK_SIZE))) := by
  induction m with
  | zero =>
    intro t k fuel _ hp _ hk hf
    obtain ⟨f, rfl⟩ : ∃ f, fuel = f + 1 := ⟨fuel - 1, by omega⟩
    have hk' : k = Int.tdiv h TASK_SIZE * Int.tdiv w TASK_SIZE := by simpa using hk
    rw [hk'] at hp
    refine ⟨t, ?_⟩
    rw [compute_image_task, claim_next_exhausted w h t hp]
    rfl
  | succ m ih =>
    intro t k fuel hwf hp hk0 hk hf
    obtain ⟨f, rfl⟩ : ∃ f, fuel = f + 1 := ⟨fuel - 1, by omega⟩
    obtain ⟨c1, c2, c3⟩ := claim_next_at w h t k hwf hp hC hk0 (by push_cast at hk; omega)
    obtain ⟨t1, ht1⟩ := ih (claim_next w h t).1 (k + 1) f c2 c3 (by omega)
      (by push_cast at hk; omega) (by omega)
    have hclaim : claim_next w h t = ((claim_next w h t).1,
        some (k % Int.tdiv w TASK_SIZE * TASK_SIZE, k / Int.tdiv w TASK_SIZE * TASK_SIZE)) := by
      rw [← c1]
    refine ⟨t1, ?_⟩
    rw [compute_image_task, hclaim]
    simp only []
    rw [ht1, Option.map_some', List.range_succ_eq_map, List.flatMap_cons, List.flatMap_map]
    simp only [Nat.cast_zero, Int.add_zero, Option.some.injEq, Prod.mk.injEq, true_and,
      List.append_cancel_left_eq]
    apply List.flatMap_congr
    intro q _
    simp only [Function.comp, Nat.succ_eq_add_one]
    push_cast
    rw [show k + 1 + (q : Int) = k + ((q : Int) + 1) by ring]

/-- Plots of the tiles `0 .. R*C-1` of an `R` x `C` layout, drawn in row-major
order: the pixels of the `20*C` x `20*R` rectangle, once each. -/
theorem plots_at_tiles (w h : Int) (v : Viewport) (R C : Int) (hR : 0 ≤ R) (hC : 0 < C)
    (px py : Int) :
    plots_at ((List.range (R * C).toNat).flatMap (fun (q : Nat) =>
        draw_tile w h v ((0 + (q : Int)) % C * TASK_SIZE) ((0 + (q : Int)) / C * TASK_SIZE))) px py
      = if (0 ≤ px ∧ px < C * 20) ∧ (0 ≤ py ∧ py < R * 20) then 1 else 0 := by
  have hN : 0 ≤ R * C := Int.mul_nonneg hR (le_of_lt hC)
  have hsum : plots_at ((List.range (R * C).toNat).flatMap (fun (q : Nat) =>
        draw_tile w h v ((0 + (q : Int)) % C * TASK_SIZE) ((0 + (q : Int)) / C * TASK_SIZE))) px py
      = ((List.range (R * C).toNat).map (fun (q : Nat) =>
          plots_at (draw_tile w h v ((0 + (q : Int)) % C * TASK_SIZE)
            ((0 + (q : Int)) / C * TASK_SIZE)) px py)).sum := by
    unfold plots_at
    rw [List.countP_flatMap]
    rfl
  rw [hsum]
  simp only [plots_at_draw_tile, Int.zero_add]
  unfold TASK_SIZE
  split_ifs with hin
  · obtain ⟨⟨hx0, hx1⟩, hy0, hy1⟩ := hin
    have hi0 : 0 ≤ py / 20 := by omega
    have hj0 : 0 ≤ px / 20 := by omega
    have hi1 : py / 20 < R := by omega
    have hj1 : px / 20 < C := by omega
    have hge : 0 ≤ py / 20 * C + px / 20 := by
      have := Int.mul_nonneg hi0 (le_of_lt hC)
      omega
    have hlt : py / 20 * C + px / 20 < R * C := by
      have : (py / 20 + 1) * C ≤ R * C := Int.mul_le_mul_of_nonneg_right (by omega) (le_of_lt hC)
      have e2 : (py / 20 + 1) * C = py / 20 * C + C := by ring
      omega
    have hq := (row_major_index C (py / 20 * C + px / 20) (py / 20) (px / 20) hC hj0 hj1).1 rfl
    refine sum_map_one _ _ (py / 20 * C + px / 20).toNat (List.nodup_range _)
      (List.mem_range.2 (by omega)) ?_ ?_
    · rw [Int.toNat_of_nonneg hge, ← hq.1, ← hq.2, if_pos (by omega)]
    · intro q hq' hne
      rw [if_neg]
      intro hc
      apply hne
      have hm := Int.emod_nonneg (q : Int) (ne_of_gt hC)
      have e : (q : Int) / C * C + (q : Int) % C = q := by
        have := Int.ediv_add_emod (q : Int) C
        rw [Int.mul_comm] at this
        exact this
      have h1 : (q : Int) % C = px / 20 := by omega
      have h2 : (q : Int) / C = py / 20 := by omega
      rw [h1, h2] at e
      omega
  · rw [List.sum_eq_zero_iff]
    intro x hx
    rw [List.mem_map] at hx
    obtain ⟨q, hq', rfl⟩ := hx
    rw [List.mem_range] at hq'
    rw [if_neg]
    intro hc
    apply hin
    obtain ⟨b1, b2, b3, b4⟩ := row_major_bound R C (q : Int) hC (by omega) (by omega)
    omega

theorem tdiv_task_size (a : Int) (ha : 0 ≤ a) : Int.tdiv a TASK_SIZE = a / 20 :=
  Int.tdiv_eq_ediv ha (by decide)

/-- The worker on its own, started on the array of `init_tasks` with one unit
of fuel more than there are tiles, returns, and its plots are the pixels of the
rectangle of whole tiles, once each. -/
theorem compute_image_task_plots (w h : Int) (v : Viewport) (hw : 0 ≤ w) (hh : 0 ≤ h) :
    ∃ t1 tr, compute_image_task w h v ((h / 20 * (w / 20)).toNat + 1) (init_tasks w h)
        = some (t1, tr) ∧
      ∀ px py, plots_at tr px py
        = if (0 ≤ px ∧ px < 20 * (w / 20)) ∧ (0 ≤ py ∧ py < 20 * (h / 20)) then 1 else 0 := by
  have eR := tdiv_task_size h hh
  have eC := tdiv_task_size w hw
  have hR : 0 ≤ h / 20 := by omega
  have hC : 0 ≤ w / 20 := by omega
  rcases eq_or_lt_of_le hC with hC0 | hCpos
  · refine ⟨init_tasks w h, [], ?_, ?_⟩
    · rw [← hC0, Int.mul_zero]
      have hnone : claim_next w h (init_tasks w h) = (init_tasks w h, none) := by
        apply claim_next_none
        intro i j _ _ h3 h4
        rw [eC] at h4
        omega
      show compute_image_task w h v (0 + 1) (init_tasks w h) = _
      rw [compute_image_task, hnone]
    · intro px py
      rw [if_neg (by omega)]
      rfl
  · obtain ⟨t1, ht1⟩ := compute_image_task_from w h v (by rw [eC]; exact hCpos)
      (h / 20 * (w / 20)).toNat (init_tasks w h) 0 ((h / 20 * (w / 20)).toNat + 1)
      (well_formed_init_tasks w h) (claimed_first_init_tasks w h (by rw [eC]; exact hC))
      (le_refl 0) (by
        rw [eR, eC]
        have := Int.mul_nonneg hR hC
        omega) (by omega)
    refine ⟨t1, _, ht1, ?_⟩
    intro px py
    rw [eC, plots_at_tiles w h v (h / 20) (w / 20) hR hCpos px py]
    have e1 : w / 20 * 20 = 20 * (w / 20) := by ring
    have e2 : h / 20 * 20 = 20 * (h / 20) := by ring
    rw [e1, e2]

theorem plots_at_pos_of_mem (tr : List Plot) (p : Plot) (hp : p ∈ tr) :
    0 < plots_at tr p.x p.y := by
  unfold plots_at
  rw [List.countP_pos_iff]
  exact ⟨p, hp, by simp⟩

theorem length_flatten_init_tasks (w h : Int) :
    (init_tasks w h).flatten.length
      = (Int.tdiv h TASK_SIZE).toNat * (Int.tdiv w TASK_SIZE).toNat := by
  unfold init_tasks
  simp only [List.length_flatten, List.map_map]
  have : (List.length ∘ fun (i : Int) => (for_range 0 (Int.tdiv w TASK_SIZE)).map fun (j : Int) =>
      ({ x := j * TASK_SIZE, y := i * TASK_SIZE, started := 0 } : Task))
      = fun _ => (Int.tdiv w TASK_SIZE).toNat := by
    funext i
    simp [for_range]
  rw [this, List.map_const', List.sum_replicate, smul_eq_mul]
  simp [for_range]

/-- C9. The tile layout rounds down: on a `w` x `h` grid `init_tasks` builds
`floor(h/20)` rows of `floor(w/20)` tiles, tile `(i, j)` at `(20*j, 20*i)` and
not started; the worker draws exactly the pixels with `0 <= px < 20*floor(w/20)`
and `0 <= py < 20*floor(h/20)`, once each (the worker that claims a tile plots
the 20 x 20 square at its origin), every one of them inside the grid and inside
exactly one tile. -/
theorem tile_layout_rounds_down (w h : Int) (v : Viewport) (hw : 0 ≤ w) (hh : 0 ≤ h) :
    (init_tasks w h).length = (h / 20).toNat ∧
    (∀ row ∈ init_tasks w h, row.length = (w / 20).toNat) ∧
    (init_tasks w h).flatten.length = (h / 20).toNat * (w / 20).toNat ∧
    (∀ i j, 0 ≤ i → i < h / 20 → 0 ≤ j → j < w / 20 →
      tile (init_tasks w h) i j = ⟨20 * j, 20 * i, 0⟩) ∧
    (∀ i j px py, 0 ≤ i → i < h / 20 → 0 ≤ j → j < w / 20 →
      plots_at (draw_tile w h v (tile (init_tasks w h) i j).x (tile (init_tasks w h) i j).y)
          px py
        = if (20 * j ≤ px ∧ px < 20 * j + 20) ∧ (20 * i ≤ py ∧ py < 20 * i + 20) then 1
          else 0) ∧
    (∃ t1 tr, compute_image_task w h v ((h / 20 * (w / 20)).toNat + 1) (init_tasks w h)
        = some (t1, tr) ∧
      (∀ px py, plots_at tr px py
        = if (0 ≤ px ∧ px < 20 * (w / 20)) ∧ (0 ≤ py ∧ py < 20 * (h / 20)) then 1 else 0) ∧
      (∀ p ∈ tr, 0 ≤ p.x ∧ p.x < w ∧ 0 ≤ p.y ∧ p.y < h)) ∧
    (∀ px py, 0 ≤ px → px < 20 * (w / 20) → 0 ≤ py → py < 20 * (h / 20) →
      ∃ i j, 0 ≤ i ∧ i < h / 20 ∧ 0 ≤ j ∧ j < w / 20 ∧
        ((tile (init_tasks w h) i j).x ≤ px ∧ px < (tile (init_tasks w h) i j).x + 20 ∧
          (tile (init_tasks w h) i j).y ≤ py ∧ py < (tile (init_tasks w h) i j).y + 20) ∧
        ∀ i' j', 0 ≤ i' → i' < h / 20 → 0 ≤ j' → j' < w / 20 →
          (tile (init_tasks w h) i' j').x ≤ px → px < (tile (init_tasks w h) i' j').x + 20 →
          (tile (init_tasks w h) i' j').y ≤ py → py < (tile (init_tasks w h) i' j').y + 20 →
          i' = i ∧ j' = j) := by
  have eR := tdiv_task_size h hh
  have eC := tdiv_task_size w hw
  have htile : ∀ i j, 0 ≤ i → i < h / 20 → 0 ≤ j → j < w / 20 →
      tile (init_tasks w h) i j = ⟨20 * j, 20 * i, 0⟩ := by
    intro i j h1 h2 h3 h4
    rw [tile_init_tasks w h i j h1 (by rw [eR]; exact h2) h3 (by rw [eC]; exact h4)]
    unfold TASK_SIZE
    rw [Int.mul_comm j, Int.mul_comm i]
  refine ⟨?_, ?_, ?_, htile, ?_, ?_, ?_⟩
  · rw [← eR]
    simp [init_tasks, for_range]
  · intro row hrow
    unfold init_tasks at hrow
    simp only [List.mem_map] at hrow
    obtain ⟨i, _, rfl⟩ := hrow
    rw [← eC]
    simp [for_range]
  · rw [length_flatten_init_tasks, eR, eC]
  · intro i j px py h1 h2 h3 h4
    rw [htile i j h1 h2 h3 h4, plots_at_draw_tile]
  · obtain ⟨t1, tr, hrun, hplots⟩ := compute_image_task_plots w h v hw hh
    refine ⟨t1, tr, hrun, hplots, ?_⟩
    intro p hp
    have hpos := plots_at_pos_of_mem tr p hp
    rw [hplots] at hpos
    split_ifs at hpos with hin
    · omega
    · omega
  · intro px py hx0 hx1 hy0 hy1
    refine ⟨py / 20, px / 20, by omega, by omega, by omega, by omega, ?_, ?_⟩
    · rw [htile (py / 20) (px / 20) (by omega) (by omega) (by omega) (by omega)]
      simp only []
      omega
    · intro i' j' h1 h2 h3 h4
      rw [htile i' j' h1 h2 h3 h4]
      simp only []
      omega

theorem tile_layout_rounds_down_witness :
    (init_tasks 650 490).length = ((490 : Int) / 20).toNat ∧
    (∀ row ∈ init_tasks 650 490, row.length = ((650 : Int) / 20).toNat) :=
  ⟨(tile_layout_rounds_down 650 490 ⟨-3/2, 1/2, -1, 1⟩ (by decide) (by decide)).1,
   (tile_layout_rounds_down 650 490 ⟨-3/2, 1/2, -1, 1⟩ (by decide) (by decide)).2.1⟩

/-- C2 (as amended). Dynamic strategy coverage: on a grid whose width and
height are multiples of 20 the worker returns and its tiles cover every pixel
of the grid exactly once, and nothing outside it. -/
theorem tiles_cover_grid_of_multiples (w h : Int) (v : Viewport) (hw : 0 ≤ w) (hh : 0 ≤ h)
    (hdw : 20 ∣ w) (hdh : 20 ∣ h) :
    ∃ t1 tr, compute_image_task w h v ((h / 20 * (w / 20)).toNat + 1) (init_tasks w h)
        = some (t1, tr) ∧
      ∀ px py, plots_at tr px py
        = if (0 ≤ px ∧ px < w) ∧ (0 ≤ py ∧ py < h) then 1 else 0 := by
  obtain ⟨t1, tr, hrun, hplots⟩ := compute_image_task_plots w h v hw hh
  refine ⟨t1, tr, hrun, ?_⟩
  intro px py
  rw [hplots px py, Int.mul_ediv_cancel' hdw, Int.mul_ediv_cancel' hdh]

theorem tiles_cover_grid_of_multiples_witness :
    ∃ t1 tr, compute_image_task 640 480 ⟨-3/2, 1/2, -1, 1⟩
        (((480 : Int) / 20 * ((640 : Int) / 20)).toNat + 1) (init_tasks 640 480) = some (t1, tr) ∧
      ∀ px py, plots_at tr px py
        = if (0 ≤ px ∧ px < 640) ∧ (0 ≤ py ∧ py < 480) then 1 else 0 :=
  tiles_cover_grid_of_multiples 640 480 ⟨-3/2, 1/2, -1, 1⟩ (by decide) (by decide)
    (by decide) (by decide)

/-- C2, the claim as stated: on a 30 x 30 grid the worker draws its single
tile and returns, and pixel `(25, 25)` of the grid is never plotted. -/
theorem tiles_miss_trailing_pixel :
    (0 : Int) ≤ 25 ∧ (25 : Int) < 30 ∧
    (compute_image_task 30 30 ⟨-3/2, 1/2, -1, 1⟩ 2 (init_tasks 30 30)).map
      (fun r => plots_at r.2 25 25) = some 0 := by
  refine ⟨by decide, by decide, ?_⟩
  obtain ⟨t1, tr, hrun, hplots⟩ :=
    compute_image_task_plots 30 30 ⟨-3/2, 1/2, -1, 1⟩ (by decide) (by decide)
  have hfuel : (((30 : Int) / 20 * ((30 : Int) / 20)).toNat + 1) = 2 := by decide
  rw [hfuel] at hrun
  rw [hrun, Option.map_some', hplots 25 25, if_neg (by decide)]

theorem draw_tile_colour (w h : Int) (v : Viewport) (xtask ytask : Int) :
    ∀ p ∈ draw_tile w h v xtask ytask,
      p.colour = gradient (compute_point (v.xmin + (p.x : ℚ) * (v.xmax - v.xmin) / (w : ℚ))
        (v.ymin + (p.y : ℚ) * (v.ymax - v.ymin) / (h : ℚ)) MAXITER) MAXITER := by
  intro p hp
  unfold draw_tile at hp
  simp only [List.mem_flatMap, List.mem_map] at hp
  obtain ⟨j, _, i, _, rfl⟩ := hp
  rfl

/-- C6. At the top-left pixel of the 640 x 480 grid with the initial viewport
and the caller's cap at 250 (one press of `-`), the first tile claimed is the
one at `(0, 0)`; the dynamic worker, which evaluates and colours with `MAXITER`
whatever the caller's cap, plots `(0, 0, 12)`, while the static worker plots
`(0, 0, 25)` for cap 250. -/
theorem dynamic_worker_ignores_cap :
    (claim_next 640 480 (init_tasks 640 480)).2 = some (0, 0) ∧
    framebuffer (draw_tile 640 480 ⟨-3/2, 1/2, -1, 1⟩ 0 0) 0 0 = some ⟨0, 0, 12⟩ ∧
    framebuffer (FractalThread.compute_image_thread 640
      (FractalThread.args 640 480 1 (-3/2) (1/2) (-1) 1 250 0)) 0 0 = some ⟨0, 0, 25⟩ := by
  refine ⟨?_, ?_, ?_⟩
  · exact (claim_next_at 640 480 (init_tasks 640 480) 0 (well_formed_init_tasks 640 480)
      (claimed_first_init_tasks 640 480 (by decide)) (by decide) (by decide) (by decide)).1
  · have hp : plots_at (draw_tile 640 480 ⟨-3/2, 1/2, -1, 1⟩ 0 0) 0 0 = 1 := by
      rw [plots_at_draw_tile]
      decide
    rw [framebuffer_of_uniform _
      (fun px py => gradient (compute_point
        ((-3/2 : ℚ) + (px : ℚ) * ((1/2 : ℚ) - (-3/2 : ℚ)) / ((640 : Int) : ℚ))
        ((-1 : ℚ) + (py : ℚ) * ((1 : ℚ) - (-1 : ℚ)) / ((480 : Int) : ℚ)) MAXITER) MAXITER)
      (draw_tile_colour 640 480 ⟨-3/2, 1/2, -1, 1⟩ 0 0), hp, if_neg (by decide)]
    have e1 : ((-3/2 : ℚ) + ((0 : Int) : ℚ) * ((1/2 : ℚ) - (-3/2 : ℚ)) / ((640 : Int) : ℚ))
        = -3/2 := by norm_num
    have e2 : ((-1 : ℚ) + ((0 : Int) : ℚ) * ((1 : ℚ) - (-1 : ℚ)) / ((480 : Int) : ℚ)) = -1 := by
      norm_num
    rw [e1, e2, compute_point_corner MAXITER (by decide)]
    exact congrArg some gradient_3_500
  · have hp : plots_at (FractalThread.compute_image_thread 640
        (FractalThread.args 640 480 1 (-3/2) (1/2) (-1) 1 250 0)) 0 0 = 1 := by
      rw [plots_at_thread]
      decide
    rw [framebuffer_of_uniform _
      (fun px py => gradient (compute_point
        ((-3/2 : ℚ) + (px : ℚ) * ((1/2 : ℚ) - (-3/2 : ℚ)) / ((640 : Int) : ℚ))
        ((-1 : ℚ) + (py : ℚ) * ((1 : ℚ) - (-1 : ℚ)) / ((480 : Int) : ℚ)) 250) 250)
      (thread_plot_colour 640 480 1 (-3/2) (1/2) (-1) 1 250 0), hp, if_neg (by decide)]
    have e1 : ((-3/2 : ℚ) + ((0 : Int) : ℚ) * ((1/2 : ℚ) - (-3/2 : ℚ)) / ((640 : Int) : ℚ))
        = -3/2 := by norm_num
    have e2 : ((-1 : ℚ) + ((0 : Int) : ℚ) * ((1 : ℚ) - (-1 : ℚ)) / ((480 : Int) : ℚ)) = -1 := by
      norm_num
    rw [e1, e2, compute_point_corner 250 (by decide)]
    exact congrArg some gradient_3_250

end FractalTask

/-! ## Zoom (C10) -/

/-- C10. Zoom round trip over exact arithmetic: `zoom_in` followed by `zoom_out`
gives back the four bounds of the viewport. -/
theorem zoom_out_zoom_in (v : Viewport) : zoom_out (zoom_in v) = v := by
  cases v with
  | mk a b c d =>
    simp only [zoom_in, zoom_out, Viewport.mk.injEq]
    refine ⟨?_, ?_, ?_, ?_⟩ <;> ring

/-! ## The escape rule (C12) -/

/-- From a loop state that sits on the orbit at step `iter`, the loop returns
the first step from `iter` on at which the squared magnitude reaches 16, or
`max`. -/
theorem compute_point_loop_orbit (alpha : Cplx) (max : Int) (z : Cplx) (iter : Int) :
    ∀ n : Nat, iter = n → z = orbit alpha n → iter ≤ max →
      (16 ≤ (orbit alpha (compute_point_loop alpha max z iter).toNat).abs_sq ∨
        compute_point_loop alpha max z iter = max) ∧
      ∀ k : Nat, iter ≤ k → (k : Int) < compute_point_loop alpha max z iter →
        (orbit alpha k).abs_sq < 16 := by
  induction z, iter using compute_point_loop.induct alpha max with
  | case1 z iter h ih =>
    intro n hn hz hle
    rw [compute_point_loop_step alpha max z iter h]
    obtain ⟨h1, h2⟩ := ih (n + 1) (by push_cast; omega) (by rw [orbit, hz]) (by omega)
    refine ⟨h1, ?_⟩
    intro k hk hlt
    rcases eq_or_lt_of_le hk with e | hgt
    · have : k = n := by omega
      rw [this, ← hz]
      exact h.1
    · exact h2 k (by omega) hlt
  | case2 z iter h =>
    intro n hn hz hle
    rw [compute_point_loop_stop alpha max z iter h]
    refine ⟨?_, fun k hk hlt => absurd hlt (by omega)⟩
    by_cases hm : iter < max
    · left
      have : ¬ z.abs_sq < 16 := fun hc => h ⟨hc, hm⟩
      rw [hn, Int.toNat_ofNat, ← hz]
      exact not_lt.1 this
    · right
      omega

/-- C12 (as amended). Escape rule of `compute_point` over exact arithmetic:
for every cap `>= 0` the result `r` lies in `0 .. cap`, the orbit has magnitude
at least 4 at step `r` or `r` is the cap, and the magnitude is below 4 at every
earlier step: `r` is the least `k <= cap` with `|z_k| >= 4` or `k = cap`. -/
theorem compute_point_escape_rule (x y : ℚ) (cap : Int) (hcap : 0 ≤ cap) :
    0 ≤ compute_point x y cap ∧ compute_point x y cap ≤ cap ∧
    (16 ≤ (orbit ⟨x, y⟩ (compute_point x y cap).toNat).abs_sq ∨ compute_point x y cap = cap) ∧
    ∀ k : Nat, (k : Int) < compute_point x y cap → (orbit ⟨x, y⟩ k).abs_sq < 16 := by
  obtain ⟨h1, h2⟩ := compute_point_loop_orbit ⟨x, y⟩ cap ⟨0, 0⟩ 0 0 rfl rfl hcap
  exact ⟨compute_point_loop_ge _ _ _ _, compute_point_loop_le _ _ _ _ hcap, h1,
    fun k hk => h2 k (by omega) hk⟩

theorem compute_point_escape_rule_witness :
    0 ≤ compute_point 4 0 2 ∧ compute_point 4 0 2 ≤ 2 ∧
    (16 ≤ (orbit ⟨4, 0⟩ (compute_point 4 0 2).toNat).abs_sq ∨ compute_point 4 0 2 = 2) ∧
    ∀ k : Nat, (k : Int) < compute_point 4 0 2 → (orbit ⟨4, 0⟩ k).abs_sq < 16 :=
  compute_point_escape_rule 4 0 2 (by decide)

/-- C12, the claim as stated: at `(4, 0)` with cap 2 the orbit reaches magnitude
exactly 4 at step 1; `compute_point` stops there and returns 1, although
`|z_1|` does not exceed 4 and 1 is not the cap, while step 2 is the first with
`|z_k| > 4`. -/
theorem compute_point_stops_at_radius :
    compute_point 4 0 2 = 1 ∧ (orbit ⟨4, 0⟩ 1).abs_sq = 16 ∧
    ¬ (16 < (orbit ⟨4, 0⟩ 1).abs_sq ∨ (1 : Int) = 2) ∧
    16 < (orbit ⟨4, 0⟩ 2).abs_sq := by
  refine ⟨?_, ?_, ?_, ?_⟩
  · unfold compute_point
    rw [compute_point_loop_step _ _ _ _ (by constructor <;> [norm_num [Cplx.abs_sq]; omega]),
      compute_point_loop_stop _ _ _ _ (by norm_num [Cplx.abs_sq, Cplx.add, Cplx.sq])]
    norm_num
  · norm_num [orbit, Cplx.abs_sq, Cplx.add, Cplx.sq]
  · norm_num [orbit, Cplx.abs_sq, Cplx.add, Cplx.sq]
  · norm_num [orbit, Cplx.abs_sq, Cplx.add, Cplx.sq]

/-! ## The sizes of the static bands (C13) -/

namespace FractalThread

theorem length_for_range (lo hi : Int) : (for_range lo hi).length = (hi - lo).toNat := by
  simp [for_range]

/-- Consecutive floors of multiples of `h/n` differ by `floor(h/n)` or by one
more. -/
theorem band_step (h n a : Int) (hn : 1 ≤ n) :
    (a + h) / n - a / n = h / n ∨ (a + h) / n - a / n = h / n + 1 := by
  have hn0 : (0 : Int) < n := by omega
  have ea := Int.emod_add_ediv a n
  have eh := Int.emod_add_ediv h n
  have ra0 := Int.emod_nonneg a (ne_of_gt hn0)
  have ra1 := Int.emod_lt_of_pos a hn0
  have rh0 := Int.emod_nonneg h (ne_of_gt hn0)
  have rh1 := Int.emod_lt_of_pos h hn0
  have key : a + h = (a % n + h % n) + n * (a / n + h / n) := by
    rw [Int.mul_add]; omega
  by_cases hlt : a % n + h % n < n
  · left
    have : (a + h) / n = a / n + h / n := by
      rw [key, Int.add_mul_ediv_left _ _ (ne_of_gt hn0),
        Int.ediv_eq_zero_of_lt (by omega) hlt]
      omega
    omega
  · right
    have key2 : a + h = (a % n + h % n - n) + n * (a / n + h / n + 1) := by
      rw [Int.mul_add, Int.mul_one]; omega
    have : (a + h) / n = a / n + h / n + 1 := by
      rw [key2, Int.add_mul_ediv_left _ _ (ne_of_gt hn0),
        Int.ediv_eq_zero_of_lt (by omega) (by omega)]
      omega
    omega

theorem band_rows_eq (w h n : Int) (xmin xmax ymin ymax : ℚ) (maxiter i : Int)
    (hh : 0 ≤ h) (hn : 1 ≤ n) (hr : n * h ≤ INT_MAX) (hi0 : 0 ≤ i) (hin : i < n) :
    band_rows (args w h n xmin xmax ymin ymax maxiter i)
      = ((i * h + h) / n - i * h / n).toNat := by
  unfold band_rows
  rw [length_for_range, band_start_eq w h n xmin xmax ymin ymax maxiter i hh hn hr hi0 hin,
    band_end_eq w h n xmin xmax ymin ymax maxiter i hh hn hr hi0 hin,
    show (i + 1) * h = i * h + h by ring]

theorem sum_band_rows (h n : Int) (hh : 0 ≤ h) (hn : 1 ≤ n) (m : Nat) :
    ((List.range m).map fun (k : Nat) =>
        (((k : Int) * h + h) / n - (k : Int) * h / n).toNat).sum
      = ((m : Int) * h / n).toNat := by
  induction m with
  | zero => simp
  | succ m ih =>
    rw [List.range_succ, List.map_append, List.sum_append, ih]
    simp only [List.map_cons, List.map_nil, List.sum_cons, List.sum_nil, Nat.add_zero]
    have h0 : 0 ≤ (m : Int) * h / n :=
      Int.ediv_nonneg (Int.mul_nonneg (Int.ofNat_nonneg m) hh) (by omega)
    have hmono : (m : Int) * h / n ≤ ((m : Int) * h + h) / n :=
      Int.ediv_le_ediv (by omega) (by omega)
    have e : ((m + 1 : Nat) : Int) * h = (m : Int) * h + h := by push_cast; ring
    rw [e]
    omega

/-- C13 (as amended). Static band sizes: when `n * h` fits an `int`, every band
has `floor(h/n)` or `floor(h/n) + 1` rows, the first band exactly `floor(h/n)`,
the last band `floor(h/n)` rows when `n` divides `h` and one more otherwise;
the sizes of the `n` bands sum to `h`, and when `n` divides `h` every band has
exactly `h/n` rows. -/
theorem static_band_sizes (w h n : Int) (xmin xmax ymin ymax : ℚ) (maxiter : Int)
    (hh : 0 ≤ h) (hn : 1 ≤ n) (hr : n * h ≤ INT_MAX) :
    (∀ i, 0 ≤ i → i < n →
      band_rows (args w h n xmin xmax ymin ymax maxiter i) = (h / n).toNat ∨
      band_rows (args w h n xmin xmax ymin ymax maxiter i) = (h / n).toNat + 1) ∧
    band_rows (args w h n xmin xmax ymin ymax maxiter 0) = (h / n).toNat ∧
    band_rows (args w h n xmin xmax ymin ymax maxiter (n - 1))
      = (if h % n = 0 then (h / n).toNat else (h / n).toNat + 1) ∧
    ((for_range 0 n).map fun (i : Int) =>
      band_rows (args w h n xmin xmax ymin ymax maxiter i)).sum = h.toNat ∧
    (h % n = 0 → ∀ i, 0 ≤ i → i < n →
      band_rows (args w h n xmin xmax ymin ymax maxiter i) = (h / n).toNat) := by
  have hn0 : (0 : Int) < n := by omega
  have hq : 0 ≤ h / n := Int.ediv_nonneg hh (by omega)
  have hrows := fun i hi0 hin =>
    band_rows_eq w h n xmin xmax ymin ymax maxiter i hh hn hr hi0 hin
  refine ⟨?_, ?_, ?_, ?_, ?_⟩
  · intro i hi0 hin
    rw [hrows i hi0 hin]
    rcases band_step h n (i * h) hn with e | e
    · left; omega
    · right; omega
  · rw [hrows 0 (le_refl 0) hn0]
    simp
  · rw [hrows (n - 1) (by omega) (by omega)]
    have e1 : (n - 1) * h + h = n * h := by ring
    rw [e1, Int.mul_ediv_cancel_left h (ne_of_gt hn0)]
    have eh := Int.emod_add_ediv h n
    have rh0 := Int.emod_nonneg h (ne_of_gt hn0)
    have rh1 := Int.emod_lt_of_pos h hn0
    split_ifs with hdiv
    · have e2 : (n - 1) * h = 0 + n * (h - h / n) := by
        rw [Int.mul_sub, Int.sub_mul, Int.one_mul]; omega
      rw [e2, Int.add_mul_ediv_left _ _ (ne_of_gt hn0)]
      simp
    · have e2 : (n - 1) * h = (n - h % n) + n * (h - h / n - 1) := by
        rw [Int.mul_sub, Int.mul_sub, Int.sub_mul, Int.one_mul, Int.mul_one]; omega
      rw [e2, Int.add_mul_ediv_left _ _ (ne_of_gt hn0),
        Int.ediv_eq_zero_of_lt (by omega) (by omega)]
      omega
  · have hlist : for_range 0 n = (List.range n.toNat).map (fun (k : Nat) => (k : Int)) := by
      unfold for_range
      rw [Int.sub_zero]
      apply List.map_congr_left
      intro k _
      omega
    rw [hlist, List.map_map]
    have hcong : (List.range n.toNat).map
          ((fun (i : Int) => band_rows (args w h n xmin xmax ymin ymax maxiter i)) ∘
            fun (k : Nat) => (k : Int))
        = (List.range n.toNat).map fun (k : Nat) =>
            (((k : Int) * h + h) / n - (k : Int) * h / n).toNat := by
      apply List.map_congr_left
      intro k hk
      rw [List.mem_range] at hk
      have hk2 : (k : Int) < n := by omega
      rw [Function.comp_apply]
      exact hrows (k : Int) (Int.ofNat_nonneg k) hk2
    have hcast : ((n.toNat : Nat) : Int) = n := Int.toNat_of_nonneg (le_of_lt hn0)
    rw [hcong, sum_band_rows h n hh hn, hcast, Int.mul_ediv_cancel_left h (ne_of_gt hn0)]
  · intro hdiv i hi0 hin
    rw [hrows i hi0 hin]
    have eh := Int.emod_add_ediv h n
    have e1 : i * h = 0 + n * (i * (h / n)) := by
      have : h = n * (h / n) := by omega
      calc i * h = i * (n * (h / n)) := by rw [← this]
        _ = 0 + n * (i * (h / n)) := by ring
    have e2 : i * h + h = 0 + n * (i * (h / n) + h / n) := by
      have : h = n * (h / n) := by omega
      calc i * h + h = i * (n * (h / n)) + n * (h / n) := by rw [← this]
        _ = 0 + n * (i * (h / n) + h / n) := by ring
    rw [e2, e1, Int.add_mul_ediv_left _ _ (ne_of_gt hn0),
      Int.add_mul_ediv_left _ _ (ne_of_gt hn0)]
    simp

theorem static_band_sizes_witness :
    band_rows (args 640 480 4 (-3/2) (1/2) (-1) 1 500 0) = ((480 : Int) / 4).toNat ∧
    ((for_range 0 4).map fun (i : Int) =>
      band_rows (args 640 480 4 (-3/2) (1/2) (-1) 1 500 i)).sum = (480 : Int).toNat :=
  ⟨(static_band_sizes 640 480 4 (-3/2) (1/2) (-1) 1 500 (by decide) (by decide)
      (by decide)).2.1,
   (static_band_sizes 640 480 4 (-3/2) (1/2) (-1) 1 500 (by decide) (by decide)
      (by decide)).2.2.2.1⟩

/-- C13, the claim as stated: with 5 rows and 3 workers the bands are `[0, 1)`,
`[1, 3)` and `[3, 5)`; the middle band, which is not the last, has 2 rows and
not `floor(5/3) = 1`, and the last band has 2 rows and not `5 - 2*1 = 3`.  And
with `2^30` rows and 2 workers, where `(thread_id + 1) * height` leaves the
`int` range, the last band is empty. -/
theorem static_band_sizes_uneven :
    band_rows (args 640 5 3 (-3/2) (1/2) (-1) 1 500 0) = 1 ∧
    band_rows (args 640 5 3 (-3/2) (1/2) (-1) 1 500 1) = 2 ∧
    band_rows (args 640 5 3 (-3/2) (1/2) (-1) 1 500 2) = 2 ∧
    ((5 : Int) / 3).toNat = 1 ∧ ((5 : Int) - (3 - 1) * ((5 : Int) / 3)).toNat = 3 ∧
    band_rows (args 640 1073741824 2 (-3/2) (1/2) (-1) 1 500 1) = 0 := by
  refine ⟨?_, ?_, ?_, by decide, by decide, ?_⟩ <;> rw [band_rows, length_for_range] <;> decide

end FractalThread

/-! ## The mutex discipline of the worker pool (C11) -/

theorem bracketed_plot_actions (tr : List Plot) (rest : List Action)
    (h : bracketed false rest) : bracketed false (plot_actions tr ++ rest) := by
  induction tr with
  | nil => exact h
  | cons p tr ih =>
    have e : plot_actions (p :: tr) ++ rest
        = Action.lock :: Action.gfx_color p.colour :: Action.gfx_point p.x p.y :: Action.unlock
            :: (plot_actions tr ++ rest) := by
      simp [plot_actions]
    rw [e]
    exact ⟨⟨p.x, p.y, _, rfl⟩, ih⟩

theorem bracketed_after_scan (w h : Int) (v : Viewport) (r : Option (Int × Int)) :
    bracketed true (FractalTask.after_scan w h v r) := by
  cases r with
  | none => exact trivial
  | some p =>
    obtain ⟨x, y⟩ := p
    exact bracketed_plot_actions _ _ rfl

theorem bracketed_of_in_critical (b : Bool) (p : List Action) (hb : bracketed b p)
    (hc : in_critical p) : b = true := by
  cases b with
  | true => rfl
  | false =>
    cases p with
    | nil => exact absurd hc (by simp [in_critical])
    | cons a rest => cases a <;> simp_all [in_critical, bracketed]

theorem pool_inv_static (w h n : Int) (xmin xmax ymin ymax : ℚ) (maxiter : Int) :
    pool_inv (FractalThread.pool w h n xmin xmax ymin ymax maxiter) := by
  intro k
  have hflag : decide ((FractalThread.pool w h n xmin xmax ymin ymax maxiter).holder = some k)
      = false := by simp [FractalThread.pool]
  rw [hflag]
  show bracketed false (((FractalThread.compute_image w h n xmin xmax ymin ymax maxiter).map
    plot_actions).getD k [])
  rw [List.getD_eq_getElem?_getD, List.getElem?_map]
  cases (FractalThread.compute_image w h n xmin xmax ymin ymax maxiter)[k]? with
  | none => exact trivial
  | some tr =>
    have := bracketed_plot_actions tr [] trivial
    rw [List.append_nil] at this
    exact this

theorem pool_inv_dynamic (w h n : Int) : pool_inv (FractalTask.pool w h n) := by
  intro k
  have hflag : decide ((FractalTask.pool w h n).holder = some k) = false := by
    simp [FractalTask.pool]
  rw [hflag]
  show bracketed false (((for_range 0 n).map fun (_ : Int) =>
    [Action.lock, Action.scan]).getD k [])
  rw [List.getD_eq_getElem?_getD, List.getElem?_map]
  cases (for_range 0 n)[k]? with
  | none => exact trivial
  | some i => exact rfl

theorem getD_set_progs (l : List (List Action)) (k k1 : Nat) (a : List Action)
    (hk : k < l.length) :
    (l.set k a).getD k1 [] = if k = k1 then a else l.getD k1 [] := by
  simp only [List.getD_eq_getElem?_getD, List.getElem?_set]
  by_cases e : k = k1
  · subst e
    simp [hk]
  · simp [e]

theorem lt_length_of_getD (l : List (List Action)) (k : Nat) (a : Action) (rest : List Action)
    (h : l.getD k [] = a :: rest) : k < l.length := by
  by_contra hc
  rw [List.getD_eq_getElem?_getD, List.getElem?_eq_none (by omega)] at h
  simp at h

/-- The owner of the mutex is the only worker that can move past anything but
a lock: a worker with an action other than `pthread_mutex_lock` next owns it. -/
theorem holder_of_bracketed (s : pool_state) (hinv : pool_inv s) (k : Nat) (a : Action)
    (rest : List Action) (hp : s.progs.getD k [] = a :: rest) (ha : a ≠ Action.lock) :
    s.holder = some k ∧ bracketed true (a :: rest) := by
  have hk := hinv k
  rw [hp] at hk
  by_cases hh : s.holder = some k
  · simp only [hh, decide_True] at hk
    exact ⟨hh, hk⟩
  · simp only [hh, decide_False] at hk
    cases a <;> simp_all [bracketed]

theorem step_inv (w h : Int) (v : Viewport) (k : Nat) (s s1 : pool_state) (e : Nat × Action)
    (hinv : pool_inv s) (hstep : step w h v k s = some (s1, e)) :
    pool_inv s1 ∧ e.1 = k ∧ mutex_after s.holder e = some s1.holder ∧
    (e.2.is_color = true →
      ∃ x y rest, s1.holder = some k ∧ s1.progs.getD k [] = Action.gfx_point x y :: rest) := by
  unfold step at hstep
  split at hstep
  · exact absurd hstep (by simp)
  · -- pthread_mutex_lock
    rename_i rest hp
    have hlen := lt_length_of_getD _ _ _ _ hp
    split at hstep
    · rename_i hfree
      simp only [Option.some.injEq, Prod.mk.injEq] at hstep
      obtain ⟨rfl, rfl⟩ := hstep
      refine ⟨?_, rfl, by simp [mutex_after, hfree], by simp [Action.is_color]⟩
      intro k1
      have hk1 := hinv k1
      have hk := hinv k
      rw [hp, hfree] at hk
      rw [hfree] at hk1
      simp only [getD_set_progs _ _ _ _ hlen]
      by_cases e : k = k1
      · subst e
        simpa [bracketed] using hk
      · simpa [e] using hk1
    · exact absurd hstep (by simp)
  · -- pthread_mutex_unlock
    rename_i rest hp
    have hlen := lt_length_of_getD _ _ _ _ hp
    obtain ⟨hh, hb⟩ := holder_of_bracketed s hinv k _ _ hp (by simp)
    simp only [Option.some.injEq, Prod.mk.injEq] at hstep
    obtain ⟨rfl, rfl⟩ := hstep
    refine ⟨?_, rfl, by simp [mutex_after, hh], by simp [Action.is_color]⟩
    intro k1
    have hk1 := hinv k1
    rw [hh] at hk1
    simp only [getD_set_progs _ _ _ _ hlen]
    by_cases e : k = k1
    · subst e
      simpa [bracketed] using hb
    · simpa [e] using hk1
  · -- gfx_color
    rename_i c rest hp
    have hlen := lt_length_of_getD _ _ _ _ hp
    obtain ⟨hh, hb⟩ := holder_of_bracketed s hinv k _ _ hp (by simp)
    simp only [Option.some.injEq, Prod.mk.injEq] at hstep
    obtain ⟨rfl, rfl⟩ := hstep
    obtain ⟨⟨x, y, rest1, hrest⟩, hb2⟩ := hb
    refine ⟨?_, rfl, by simp [mutex_after, hh], ?_⟩
    · intro k1
      have hk1 := hinv k1
      simp only [getD_set_progs _ _ _ _ hlen]
      by_cases e : k = k1
      · subst e
        simpa [hh] using hb2
      · simpa [e] using hk1
    · intro _
      refine ⟨x, y, rest1, hh, ?_⟩
      simp only [getD_set_progs _ _ _ _ hlen, if_true]
      exact hrest
  · -- gfx_point
    rename_i x y rest hp
    have hlen := lt_length_of_getD _ _ _ _ hp
    obtain ⟨hh, hb⟩ := holder_of_bracketed s hinv k _ _ hp (by simp)
    simp only [Option.some.injEq, Prod.mk.injEq] at hstep
    obtain ⟨rfl, rfl⟩ := hstep
    refine ⟨?_, rfl, by simp [mutex_after, hh], by simp [Action.is_color]⟩
    intro k1
    have hk1 := hinv k1
    simp only [getD_set_progs _ _ _ _ hlen]
    by_cases e : k = k1
    · subst e
      simpa [hh, bracketed] using hb
    · simpa [e] using hk1
  · -- the scan of the task array
    rename_i rest hp
    have hlen := lt_length_of_getD _ _ _ _ hp
    obtain ⟨hh, _⟩ := holder_of_bracketed s hinv k _ _ hp (by simp)
    simp only [Option.some.injEq, Prod.mk.injEq] at hstep
    obtain ⟨rfl, rfl⟩ := hstep
    refine ⟨?_, rfl, by simp [mutex_after, hh], by simp [Action.is_color]⟩
    intro k1
    have hk1 := hinv k1
    simp only [getD_set_progs _ _ _ _ hlen]
    by_cases e : k = k1
    · subst e
      simpa [hh] using bracketed_after_scan w h v _
    · simpa [e] using hk1

/-- While a worker owns the mutex with a `gfx_point` next, the next event of
the pool is that `gfx_point`. -/
theorem step_of_pending (w h : Int) (v : Viewport) (k k0 : Nat) (s s1 : pool_state)
    (e : Nat × Action) (x y : Int) (rest : List Action) (hinv : pool_inv s)
    (hh : s.holder = some k0) (hp : s.progs.getD k0 [] = Action.gfx_point x y :: rest)
    (hstep : step w h v k s = some (s1, e)) : e = (k0, Action.gfx_point x y) := by
  by_cases hk : k = k0
  · subst hk
    unfold step at hstep
    rw [hp] at hstep
    simp only [Option.some.injEq, Prod.mk.injEq] at hstep
    exact hstep.2.symm
  · exfalso
    have hb := hinv k
    have hflag : decide (s.holder = some k) = false := by
      rw [hh]
      simp
      exact fun e => hk e.symm
    rw [hflag] at hb
    unfold step at hstep
    split at hstep
    · simp at hstep
    · rw [hh] at hstep
      simp at hstep
    all_goals
      rename_i hq
      rw [hq] at hb
      exact hb

/-- Along every execution from a state that satisfies the invariant: the
invariant holds at the end, the events keep the mutex discipline, and every
`gfx_color` is followed at once by the `gfx_point` of the same worker. -/
theorem run_inv (w h : Int) (v : Viewport) (sched : List Nat) :
    ∀ (s s2 : pool_state) (es : List (Nat × Action)), pool_inv s →
      run w h v sched s = some (s2, es) →
      pool_inv s2 ∧ disciplined s.holder es ∧ paired es ∧
      (∀ k0 x y rest, s.holder = some k0 →
        s.progs.getD k0 [] = Action.gfx_point x y :: rest →
        match es with
        | [] => True
        | e1 :: _ => e1.1 = k0 ∧ e1.2.is_point = true) := by
  induction sched with
  | nil =>
    intro s s2 es hinv hrun
    simp only [run, Option.some.injEq, Prod.mk.injEq] at hrun
    obtain ⟨rfl, rfl⟩ := hrun
    exact ⟨hinv, trivial, trivial, fun _ _ _ _ _ _ => trivial⟩
  | cons k ks ih =>
    intro s s2 es hinv hrun
    rw [run] at hrun
    cases hstep : step w h v k s with
    | none => rw [hstep] at hrun; simp at hrun
    | some r =>
      obtain ⟨s1, e⟩ := r
      rw [hstep] at hrun
      simp only [] at hrun
      cases hrest : run w h v ks s1 with
      | none => rw [hrest] at hrun; simp at hrun
      | some r2 =>
        obtain ⟨s3, es1⟩ := r2
        rw [hrest] at hrun
        simp only [Option.some.injEq, Prod.mk.injEq] at hrun
        obtain ⟨rfl, rfl⟩ := hrun
        obtain ⟨hinv1, hk, hmutex, hcolor⟩ := step_inv w h v k s s1 e hinv hstep
        obtain ⟨hinv3, hdisc, hpair, hpend⟩ := ih s1 s3 es1 hinv1 hrest
        refine ⟨hinv3, ?_, ⟨?_, hpair⟩, ?_⟩
        · show (match mutex_after s.holder e with
            | none => False
            | some holder1 => disciplined holder1 es1)
          rw [hmutex]
          exact hdisc
        · intro hc
          obtain ⟨x, y, rest, hh1, hp1⟩ := hcolor hc
          have := hpend k x y rest hh1 hp1
          rw [hk]
          exact this
        · intro k0 x y rest hh hp
          have := step_of_pending w h v k k0 s s1 e x y rest hinv hh hp hstep
          rw [this]
          exact ⟨rfl, rfl⟩

theorem holder_of_in_critical (s : pool_state) (hinv : pool_inv s) (k : Nat)
    (hc : in_critical (s.progs.getD k [])) : s.holder = some k := by
  have := bracketed_of_in_critical _ _ (hinv k) hc
  simpa using this

/-- C11. Framebuffer write serialisation: in every execution of the static or
the dynamic pool, with any number of workers and under any schedule, every
`gfx_color`, `gfx_point`, scan and unlock is taken by the worker that owns the
mutex and every lock is taken while it is free; every `gfx_color` is followed
at once by the `gfx_point` of the same worker, so no action of another worker
falls between them; and at any moment a worker inside a critical section owns
the mutex, so no two workers are inside one together. -/
theorem pool_serialises_writes (w h n : Int) (xmin xmax ymin ymax : ℚ) (maxiter : Int)
    (v : Viewport) (s0 : pool_state) (sched : List Nat) (s : pool_state)
    (es : List (Nat × Action))
    (hinit : s0 = FractalThread.pool w h n xmin xmax ymin ymax maxiter ∨
      s0 = FractalTask.pool w h n)
    (hrun : run w h v sched s0 = some (s, es)) :
    disciplined none es ∧ paired es ∧
    (∀ k, in_critical (s.progs.getD k []) → s.holder = some k) ∧
    (∀ k k1, in_critical (s.progs.getD k []) → in_critical (s.progs.getD k1 []) → k = k1) := by
  have hinv0 : pool_inv s0 := by
    rcases hinit with rfl | rfl
    · exact pool_inv_static w h n xmin xmax ymin ymax maxiter
    · exact pool_inv_dynamic w h n
  have hfree : s0.holder = none := by
    rcases hinit with rfl | rfl <;> rfl
  obtain ⟨hinv, hdisc, hpair, _⟩ := run_inv w h v sched s0 s es hinv0 hrun
  rw [hfree] at hdisc
  refine ⟨hdisc, hpair, fun k hc => holder_of_in_critical s hinv k hc, ?_⟩
  intro k k1 hc hc1
  have e1 := holder_of_in_critical s hinv k hc
  have e2 := holder_of_in_critical s hinv k1 hc1
  rw [e1] at e2
  exact Option.some.inj e2

theorem pool_serialises_writes_witness :
    disciplined none
      [(1, Action.lock),
       (1, Action.gfx_color (gradient (compute_point
          ((0 : ℚ) + ((0 : Int) : ℚ) * ((0 : ℚ) - (0 : ℚ)) / ((1 : Int) : ℚ))
          ((0 : ℚ) + ((1 : Int) : ℚ) * ((0 : ℚ) - (0 : ℚ)) / ((2 : Int) : ℚ)) 0) 0)),
       (1, Action.gfx_point 0 1), (1, Action.unlock), (0, Action.lock),
       (0, Action.gfx_color (gradient (compute_point
          ((0 : ℚ) + ((0 : Int) : ℚ) * ((0 : ℚ) - (0 : ℚ)) / ((1 : Int) : ℚ))
          ((0 : ℚ) + ((0 : Int) : ℚ) * ((0 : ℚ) - (0 : ℚ)) / ((2 : Int) : ℚ)) 0) 0))] ∧
    (∀ k, in_critical
        ((⟨some 0, [[Action.gfx_point 0 0, Action.unlock], []], []⟩ : pool_state).progs.getD k [])
      → (⟨some 0, [[Action.gfx_point 0 0, Action.unlock], []], []⟩ : pool_state).holder = some k) :=
  ⟨(pool_serialises_writes 1 2 2 0 0 0 0 0 ⟨0, 0, 0, 0⟩ (FractalThread.pool 1 2 2 0 0 0 0 0)
      [1, 1, 1, 1, 0, 0] ⟨some 0, [[Action.gfx_point 0 0, Action.unlock], []], []⟩ _
      (Or.inl rfl) rfl).1,
   (pool_serialises_writes 1 2 2 0 0 0 0 0 ⟨0, 0, 0, 0⟩ (FractalThread.pool 1 2 2 0 0 0 0 0)
      [1, 1, 1, 1, 0, 0] ⟨some 0, [[Action.gfx_point 0 0, Action.unlock], []], []⟩ _
      (Or.inl rfl) rfl).2.2.1⟩

end Mandelbrot
